import Mathlib

/-!
Verification development for the trie committer of the repository
(`trie/committer.go`).  The committer collapses a dirty trie into hash
references, recording written and deleted nodes into a node set and
optionally streaming leaf notifications through a bounded channel.

The Go code is shallowly embedded: byte slices become `List Nat`, the
`node` interface becomes the inductive `Node` (with a `nil` constructor
for Go's nil interface value), panics become `Except.error`, and the
mutable committer struct is threaded as explicit state.  External
collaborators that live outside the shown source (`hexToCompact`,
`nodeToBytes`) are abstracted as parameters of an `Ext` structure, since
their definitions are not part of the committer.
-/

set_option maxHeartbeats 1600000

namespace BscTrie

/-- Byte strings (Go `[]byte`) are modelled as lists of naturals. -/
abbrev Bytes := List Nat

/-- Transient cache pair carried by shortNode and fullNode (the `nodeFlag`
of package trie): `hash` is the cached digest (`none` for Go's nil
`hashNode`), `dirty` the dirty bit. -/
structure NodeFlag where
  hash : Option Bytes
  dirty : Bool
deriving DecidableEq, Repr

/-- The trie `node` interface as a closed inductive: shortNode, fullNode,
hashNode, valueNode, plus `nil` for Go's nil interface value.  A
fullNode's `children` models the Go `[17]node` array (length 17 by
convention, `nil` marking absent slots). -/
inductive Node where
  | shortNode (key : Bytes) (val : Node) (flags : NodeFlag)
  | fullNode (children : List Node) (flags : NodeFlag)
  | hashNode (digest : Bytes)
  | valueNode (bytes : Bytes)
  | nil
deriving Repr

mutual

/-- Decidable equality for `Node`, written by hand because `deriving`
does not handle the nested `List Node` occurrence. -/
def Node.deq : (a b : Node) → Decidable (a = b)
  | .shortNode k v f, .shortNode k' v' f' =>
    match decEq k k', Node.deq v v', decEq f f' with
    | isTrue h1, isTrue h2, isTrue h3 => isTrue (by subst h1; subst h2; subst h3; rfl)
    | isFalse h1, _, _ => isFalse (by intro h; injection h; contradiction)
    | _, isFalse h2, _ => isFalse (by intro h; injection h; contradiction)
    | _, _, isFalse h3 => isFalse (by intro h; injection h; contradiction)
  | .fullNode cs f, .fullNode cs' f' =>
    match Node.deqList cs cs', decEq f f' with
    | isTrue h1, isTrue h2 => isTrue (by subst h1; subst h2; rfl)
    | isFalse h1, _ => isFalse (by intro h; injection h; contradiction)
    | _, isFalse h2 => isFalse (by intro h; injection h; contradiction)
  | .hashNode b, .hashNode b' =>
    match decEq b b' with
    | isTrue h => isTrue (by subst h; rfl)
    | isFalse h => isFalse (by intro h'; injection h'; contradiction)
  | .valueNode b, .valueNode b' =>
    match decEq b b' with
    | isTrue h => isTrue (by subst h; rfl)
    | isFalse h => isFalse (by intro h'; injection h'; contradiction)
  | .nil, .nil => isTrue rfl
  | .shortNode _ _ _, .fullNode _ _ => isFalse (by intro h; exact Node.noConfusion h)
  | .shortNode _ _ _, .hashNode _ => isFalse (by intro h; exact Node.noConfusion h)
  | .shortNode _ _ _, .valueNode _ => isFalse (by intro h; exact Node.noConfusion h)
  | .shortNode _ _ _, .nil => isFalse (by intro h; exact Node.noConfusion h)
  | .fullNode _ _, .shortNode _ _ _ => isFalse (by intro h; exact Node.noConfusion h)
  | .fullNode _ _, .hashNode _ => isFalse (by intro h; exact Node.noConfusion h)
  | .fullNode _ _, .valueNode _ => isFalse (by intro h; exact Node.noConfusion h)
  | .fullNode _ _, .nil => isFalse (by intro h; exact Node.noConfusion h)
  | .hashNode _, .shortNode _ _ _ => isFalse (by intro h; exact Node.noConfusion h)
  | .hashNode _, .fullNode _ _ => isFalse (by intro h; exact Node.noConfusion h)
  | .hashNode _, .valueNode _ => isFalse (by intro h; exact Node.noConfusion h)
  | .hashNode _, .nil => isFalse (by intro h; exact Node.noConfusion h)
  | .valueNode _, .shortNode _ _ _ => isFalse (by intro h; exact Node.noConfusion h)
  | .valueNode _, .fullNode _ _ => isFalse (by intro h; exact Node.noConfusion h)
  | .valueNode _, .hashNode _ => isFalse (by intro h; exact Node.noConfusion h)
  | .valueNode _, .nil => isFalse (by intro h; exact Node.noConfusion h)
  | .nil, .shortNode _ _ _ => isFalse (by intro h; exact Node.noConfusion h)
  | .nil, .fullNode _ _ => isFalse (by intro h; exact Node.noConfusion h)
  | .nil, .hashNode _ => isFalse (by intro h; exact Node.noConfusion h)
  | .nil, .valueNode _ => isFalse (by intro h; exact Node.noConfusion h)

/-- Decidable equality on lists of nodes. -/
def Node.deqList : (a b : List Node) → Decidable (a = b)
  | [], [] => isTrue rfl
  | [], _ :: _ => isFalse (by intro h; exact List.noConfusion h)
  | _ :: _, [] => isFalse (by intro h; exact List.noConfusion h)
  | x :: xs, y :: ys =>
    match Node.deq x y, Node.deqList xs ys with
    | isTrue h1, isTrue h2 => isTrue (by subst h1; subst h2; rfl)
    | isFalse h1, _ => isFalse (by intro h; injection h; contradiction)
    | _, isFalse h2 => isFalse (by intro h; injection h; contradiction)

end

instance : DecidableEq Node := Node.deq

/-- The `n.cache()` method: shortNode and fullNode return their flags
(`node.go`); hashNode and valueNode return `(nil, true)`.  For `Node.nil`
the method call itself faults in Go; callers of `cache` in this
development handle the nil case before consulting it. -/
def Node.cache : Node → Option Bytes × Bool
  | .shortNode _ _ fl => (fl.hash, fl.dirty)
  | .fullNode _ fl => (fl.hash, fl.dirty)
  | .hashNode _ => (none, true)
  | .valueNode _ => (none, true)
  | .nil => (none, true)

/-- Entry of the node set: either a deletion tombstone
(`trienode.NewDeleted()`) or a written node `trienode.New(hash, blob)`. -/
inductive NSEntry where
  | deleted
  | written (hash : Bytes) (blob : Bytes)
deriving DecidableEq, Repr

/-- The node set accumulated during commit: `(path, entry)` pairs in
insertion order, plus the leaf mapping of `(parent hash, leaf value)`
pairs added by `AddLeaf`. -/
structure NodeSet where
  nodes : List (Bytes × NSEntry)
  leaves : List (Bytes × Bytes)
deriving DecidableEq, Repr

/-- The `AddNode` operation of the node set. -/
def NodeSet.addNode (s : NodeSet) (path : Bytes) (e : NSEntry) : NodeSet :=
  { s with nodes := s.nodes ++ [(path, e)] }

/-- The `AddLeaf` operation of the node set. -/
def NodeSet.addLeaf (s : NodeSet) (h : Bytes) (v : Bytes) : NodeSet :=
  { s with leaves := s.leaves ++ [(h, v)] }

/-- A `leafInfo` message handed from `store` to `commitLoop` over the
leaf channel: the stored node and the hash of its parent. -/
structure LeafInfo where
  node : Node
  parent : Bytes
deriving DecidableEq, Repr

/-- The committer state: the node set sink, the access-list domain of the
tracer (`tracer.accessList`, consulted only for membership), and the leaf
channel.  `leafCh = none` models a nil channel (leaf pipeline disabled);
`leafCh = some msgs` models an open channel whose so-far-sent messages
are `msgs` in send order. -/
structure Committer where
  nodes : NodeSet
  accessList : List Bytes
  leafCh : Option (List LeafInfo)
deriving DecidableEq, Repr

/-- External collaborators of the committer that are not part of the
shown source: the compact key encoding `hexToCompact` and the node
encoder `nodeToBytes`. -/
structure Ext where
  hexToCompact : Bytes → Bytes
  nodeToBytes : Node → Bytes

/-- The `common.BytesToHash` conversion: a 32-byte hash set from a byte
slice, keeping the last 32 bytes and left-padding with zeros. -/
def bytesToHash (b : Bytes) : Bytes :=
  let t := if 32 < b.length then b.drop (b.length - 32) else b
  List.replicate (32 - t.length) 0 ++ t

/-- Diagnostic of the Go runtime fault raised when a method is invoked on
a nil interface value. -/
def nilDerefMsg : String :=
  "runtime error: invalid memory address or nil pointer dereference"

/-- The `%T` rendering of a node's dynamic type used by the panic
diagnostics in `committer.go`. -/
def nodeTypeName : Node → String
  | .shortNode _ _ _ => "*trie.shortNode"
  | .fullNode _ _ => "*trie.fullNode"
  | .hashNode _ => "trie.hashNode"
  | .valueNode _ => "trie.valueNode"
  | .nil => "<nil>"

/-- Diagnostic of the `commit` panic on an illegal variant
(`fmt.Sprintf("%T: invalid node: %v", n, n)`): it names the offending
variant and renders the node value; the path is not part of it. -/
def invalidNodeMsg (n : Node) : String :=
  nodeTypeName n ++ ": invalid node"

/-- The `store` step (`committer.go` lines 155-193).  Reads the node's
cached hash; when absent, records a `Deleted` tombstone at `path` exactly
when the tracer's access list holds the path, and returns the node itself
for embedding.  When present, records a `Written` entry carrying the
digest and the encoded bytes; then either hands a leaf message to the
channel (pipeline enabled) or records a leaf-shaped shortNode's value
synchronously, and returns the hash. -/
def store (E : Ext) (c : Committer) (path : Bytes) (n : Node) : Node × Committer :=
  match (Node.cache n).1 with
  | none =>
    if c.accessList.contains path then
      (n, { c with nodes := c.nodes.addNode path .deleted })
    else
      (n, c)
  | some h =>
    let nhash := bytesToHash h
    let c1 : Committer :=
      { c with nodes := c.nodes.addNode path (.written nhash (E.nodeToBytes n)) }
    match c1.leafCh with
    | some msgs =>
      (.hashNode h, { c1 with leafCh := some (msgs ++ [⟨n, nhash⟩]) })
    | none =>
      match n with
      | .shortNode _ (.valueNode v) _ =>
        (.hashNode h, { c1 with nodes := c1.nodes.addLeaf nhash v })
      | _ => (.hashNode h, c1)

mutual

/-- The recursive `commit` (`committer.go` lines 83-124), collapsing a
node into a hash node.  The clean-cache check of lines 85-88 is hoisted
into the shortNode/fullNode branches (for hashNode and valueNode the
cache is `(none, true)`, so the check never fires on them); a nil node
faults at the `n.cache()` call; a valueNode reaches the default branch
and panics.  Panics are modelled as `Except.error`. -/
def commit (E : Ext) (path : Bytes) (n : Node) (c : Committer) :
    Except String (Node × Committer) :=
  match n with
  | .nil => .error nilDerefMsg
  | .hashNode h => .ok (.hashNode h, c)
  | .valueNode v => .error (invalidNodeMsg (.valueNode v))
  | .shortNode key val fl =>
    match fl.hash, fl.dirty with
    | some h, false => .ok (.hashNode h, c)
    | _, _ => do
      -- collapsed := cn.copy(); commit the value only when it is a fullNode
      let (newVal, c1) ← (match val with
        | .fullNode cs vfl => commit E (path ++ key) (.fullNode cs vfl) c
        | _ => .ok (val, c))
      let collapsed := Node.shortNode (E.hexToCompact key) newVal fl
      let (hashedNode, c2) := store E c1 path collapsed
      match hashedNode with
      | .hashNode hn => .ok (.hashNode hn, c2)
      | _ => .ok (collapsed, c2)
  | .fullNode cs fl =>
    match fl.hash, fl.dirty with
    | some h, false => .ok (.hashNode h, c)
    | _, _ => do
      let (hashedKids, c1) ← commitChildren E path 0 cs c
      let collapsed := Node.fullNode hashedKids fl
      let (hashedNode, c2) := store E c1 path collapsed
      match hashedNode with
      | .hashNode hn => .ok (.hashNode hn, c2)
      | _ => .ok (collapsed, c2)

/-- The loop of `commitChildren` (`committer.go` lines 127-151) over the
17-slot child array, with `i` the current slot index.  Slots 0-15 in
ascending order: absent children are skipped, hash children are kept,
anything else is committed at the path extended by the slot index.  The
17th slot (and, for the Go fixed-size array, nothing beyond it exists)
is carried over unchanged. -/
def commitChildren (E : Ext) (path : Bytes) (i : Nat) (cs : List Node)
    (c : Committer) : Except String (List Node × Committer) :=
  match cs with
  | [] => .ok ([], c)
  | child :: rest =>
    if 16 ≤ i then .ok (child :: rest, c)
    else
      match child with
      | .nil => do
        let (rs, c1) ← commitChildren E path (i + 1) rest c
        .ok (.nil :: rs, c1)
      | .hashNode h => do
        let (rs, c1) ← commitChildren E path (i + 1) rest c
        .ok (.hashNode h :: rs, c1)
      | child => do
        let (cn, c1) ← commit E (path ++ [i]) child c
        let (rs, c2) ← commitChildren E path (i + 1) rest c1
        .ok (cn :: rs, c2)

end

/-- The top-level `Commit` (`committer.go` lines 77-80):
`c.commit(nil, n).(hashNode)` — the result of the recursive commit is
converted to a hash node, a conversion that panics when the collapsed
root stayed embedded. -/
def Commit (E : Ext) (n : Node) (c : Committer) : Except String (Bytes × Committer) :=
  match commit E [] n c with
  | .error e => .error e
  | .ok (.hashNode h, c') => .ok (h, c')
  | .ok _ => .error "interface conversion: trie.node is not trie.hashNode"

/-- The background worker `commitLoop` (`committer.go` lines 196-220),
draining the list of messages sent on the leaf channel in order.  When a
callback is configured it records leaf-shaped messages into the node
set's leaf mapping and invokes the callback, whose returned error the
source discards; when no callback is configured every message is dropped.
A non-nil 17th child that is not a valueNode fails the Go type assertion
`n.Children[16].(valueNode)`. -/
def commitLoop (onleaf : Option (Bytes → Bytes → Option String)) :
    List LeafInfo → NodeSet → Except String NodeSet
  | [], ns => .ok ns
  | item :: rest, ns =>
    match onleaf with
    | none => commitLoop onleaf rest ns
    | some f =>
      match item.node with
      | .shortNode _ (.valueNode v) _ =>
        let ns1 := ns.addLeaf item.parent v
        let _ := f v item.parent   -- the callback's returned error is discarded
        commitLoop onleaf rest ns1
      | .fullNode cs _ =>
        match cs.getD 16 .nil with
        | .nil => commitLoop onleaf rest ns
        | .valueNode v =>
          let ns1 := ns.addLeaf item.parent v
          let _ := f v item.parent
          commitLoop onleaf rest ns1
        | _ => .error "interface conversion: trie.node is not trie.valueNode"
      | _ => commitLoop onleaf rest ns

mutual

/-- The tree walk `forGatherChildren` (`committer.go` lines 233-247),
returning the digests passed to `onChild` in call order: shortNode
recurses into its value, fullNode over its first 16 slots, a hashNode
reports its digest, valueNode and nil report nothing.  The default panic
branch is unreachable over the closed `Node` type. -/
def forGatherChildren : Node → List Bytes
  | .shortNode _ v _ => forGatherChildren v
  | .fullNode cs _ => gatherList 0 cs
  | .hashNode h => [bytesToHash h]
  | .valueNode _ => []
  | .nil => []

/-- The `for i := 0; i < 16` loop of `forGatherChildren` over the child
array, `i` the current slot index. -/
def gatherList : Nat → List Node → List Bytes
  | _, [] => []
  | i, ch :: rest =>
    if 16 ≤ i then [] else forGatherChildren ch ++ gatherList (i + 1) rest

end

/-- The resolver `ForEach` (`committer.go` lines 227-229).  Modelled from
the spec: the decoder `mustDecodeNodeUnsafe` is not under the shown
source; it is abstracted as a parameter, and undecodable bytes are a
fatal decode error. -/
def ForEach (decode : Bytes → Option Node) (blob : Bytes) :
    Except String (List Bytes) :=
  match decode blob with
  | none => .error "decode error"
  | some n => .ok (forGatherChildren n)

mutual

/-- The size estimator `estimateSize` (`committer.go` lines 253-276):
shortNode costs 3 plus key length plus the value's estimate, fullNode 3
plus the slot costs, valueNode and hashNode 1 plus their length; a nil
interface value reaches the default branch and panics. -/
def estimateSize : Node → Except String Nat
  | .shortNode k v _ => do
    let sv ← estimateSize v
    .ok (3 + k.length + sv)
  | .fullNode cs _ => do
    let s ← estimateChildren 0 cs 3
    .ok s
  | .valueNode b => .ok (1 + b.length)
  | .hashNode b => .ok (1 + b.length)
  | .nil => .error "node type <nil>"

/-- The `for i := 0; i < 16` loop of `estimateSize` over the child array
with accumulator `s`: an absent child adds 1, a present child adds its
estimate; the 17th slot is never reached. -/
def estimateChildren : Nat → List Node → Nat → Except String Nat
  | _, [], s => .ok s
  | i, child :: rest, s =>
    if 16 ≤ i then .ok s
    else
      match child with
      | .nil => estimateChildren (i + 1) rest (s + 1)
      | child => do
        let e ← estimateSize child
        estimateChildren (i + 1) rest (s + e)

end

deriving instance DecidableEq for Except

/-- Claim-side treatment of one branch slot in range 0-15, following the
spec's words: an absent child is skipped, a child that is already a hash
reference is kept unchanged, and any other child is recursively committed
at the path extended by its slot index. -/
def commitSlot (E : Ext) (path : Bytes) (i : Nat) (child : Node) (c : Committer) :
    Except String (Node × Committer) :=
  match child with
  | .nil => .ok (.nil, c)
  | .hashNode h => .ok (.hashNode h, c)
  | child => commit E (path ++ [i]) child c

/-- Claim-side description of committing a full node's children: the 16
branch slots are processed in ascending index order starting at `i`, each
through `commitSlot`; every slot from index 16 on is carried into the
result unchanged, with no effect on the committer state. -/
def commitSlotsSpec (E : Ext) (path : Bytes) (cs : List Node) (i : Nat)
    (c : Committer) : Except String (List Node × Committer) :=
  if 16 ≤ i then .ok (cs.drop i, c)
  else do
    let (r, c1) ← commitSlot E path i (cs.getD i .nil) c
    let (rs, c2) ← commitSlotsSpec E path cs (i + 1) c1
    .ok (r :: rs, c2)
termination_by 16 - i
decreasing_by omega

mutual

/-- Claim-side size estimate, following the spec's words: a ShortNode
costs 3 plus its key length plus the estimated size of its value; a
FullNode costs 3 plus, for each of slots 0-15, the child's estimated size
if present or 1 if absent (no 17th-slot contribution); a ValueNode or
HashNode costs 1 plus its byte length. -/
def specEstimateSize : Node → Nat
  | .shortNode k v _ => 3 + k.length + specEstimateSize v
  | .fullNode cs _ => 3 + specSlotCost 0 cs
  | .valueNode b => 1 + b.length
  | .hashNode b => 1 + b.length
  | .nil => 0

/-- Cost of the branch slots from index `i` up to 15: 1 for an absent
slot, the child's estimated size otherwise; slots past 15 cost nothing,
and slots missing from the list are absent. -/
def specSlotCost : Nat → List Node → Nat
  | i, [] => 16 - i
  | i, ch :: rest =>
    if 16 ≤ i then 0
    else
      (match ch with
        | .nil => 1
        | ch => specEstimateSize ch) + specSlotCost (i + 1) rest

end

mutual

/-- Nodes of the Go data model reachable by `estimateSize`: full nodes
carry exactly 17 children (the `[17]node` array) and a shortNode's value
is never a nil interface. -/
def goodNode : Node → Bool
  | .shortNode _ v _ =>
    (match v with
      | .nil => false
      | v => goodNode v)
  | .fullNode cs _ => cs.length = 17 && goodChildren cs
  | .valueNode _ => true
  | .hashNode _ => true
  | .nil => false

/-- All present children of a full node are good. -/
def goodChildren : List Node → Bool
  | [] => true
  | ch :: rest =>
    (match ch with
      | .nil => true
      | ch => goodNode ch) && goodChildren rest

end

mutual

/-- Claim-side count of the hash references with digest `d` found
anywhere in a node's structure, including inside nested embedded
shortNode and fullNode shapes. -/
def hashRefCount (d : Bytes) : Node → Nat
  | .shortNode _ v _ => hashRefCount d v
  | .fullNode cs _ => hashRefCountList d cs
  | .hashNode h => if bytesToHash h = d then 1 else 0
  | .valueNode _ => 0
  | .nil => 0

/-- Count of hash references with digest `d` over a child list. -/
def hashRefCountList (d : Bytes) : List Node → Nat
  | [] => 0
  | ch :: rest => hashRefCount d ch + hashRefCountList d rest

end

mutual

/-- Shapes producible by the node decoder: every full node carries
exactly 17 children and its 17th slot is either absent or a terminal
value (the decoder never places a hash reference there), recursively. -/
def decodedWF : Node → Bool
  | .shortNode _ v _ => decodedWF v
  | .fullNode cs _ => cs.length = 17 && decodedWFChildren 0 cs
  | .hashNode _ => true
  | .valueNode _ => true
  | .nil => true

/-- Well-formedness of a decoded child list starting at slot `i`: slots
below 16 are recursively well-formed, slots from 16 on hold only nil or a
terminal value. -/
def decodedWFChildren : Nat → List Node → Bool
  | _, [] => true
  | i, ch :: rest =>
    (if 16 ≤ i then
      (match ch with
        | .nil => true
        | .valueNode _ => true
        | _ => false)
     else decodedWF ch) && decodedWFChildren (i + 1) rest

end

mutual

/-- Inputs on which the recursive commit cannot hit the fail-fast branch:
the node is not a nil interface or bare terminal value, and no dirty full
node reachable through the recursion (shortNode values that are full
nodes, branch slots 0-15) holds a bare terminal value in a branch slot.
Clean subtrees are never descended into. -/
def noPanic : Node → Bool
  | .shortNode _ v fl =>
    if fl.hash.isSome && !fl.dirty then true
    else
      (match v with
        | .fullNode cs vfl => noPanic (.fullNode cs vfl)
        | _ => true)
  | .fullNode cs fl =>
    if fl.hash.isSome && !fl.dirty then true
    else noPanicChildren 0 cs
  | .hashNode _ => true
  | .valueNode _ => false
  | .nil => false

/-- The commit of every branch slot from index `i` on stays panic-free:
absent and hash children are skipped or kept, any other child must itself
be panic-free; slots from 16 on are never committed. -/
def noPanicChildren : Nat → List Node → Bool
  | _, [] => true
  | i, ch :: rest =>
    if 16 ≤ i then true
    else
      (match ch with
        | .nil => true
        | .hashNode _ => true
        | ch => noPanic ch) && noPanicChildren (i + 1) rest

end

/-- Claim-side payload the leaf worker is expected to record for one
message: the value of a leaf-shaped shortNode, or a full node's terminal
17th slot, keyed by the parent digest. -/
def leafPayload (m : LeafInfo) : Option (Bytes × Bytes) :=
  match m.node with
  | .shortNode _ (.valueNode v) _ => some (m.parent, v)
  | .fullNode cs _ =>
    (match cs.getD 16 .nil with
      | .valueNode v => some (m.parent, v)
      | _ => none)
  | _ => none

/-- Draining of the leaf channel after the walk: the worker consumes the
messages sent so far against the committer's node set (spec section 4.2:
the channel is closed and drained before the node set is returned). -/
def drain (onleaf : Option (Bytes → Bytes → Option String)) (c : Committer) :
    Except String NodeSet :=
  commitLoop onleaf (c.leafCh.getD []) c.nodes

/-- A concrete instantiation of the external collaborators, used to
evaluate the development on closed inputs. -/
def E0 : Ext := ⟨id, fun _ => [0]⟩

/-- An empty committer with the leaf pipeline disabled. -/
def c0 : Committer := ⟨⟨[], []⟩, [], none⟩

/-- An empty committer with the leaf pipeline enabled and no message sent
yet. -/
def cPipe : Committer := ⟨⟨[], []⟩, [], some []⟩

/-- A callback that reports a failure on every leaf. -/
def failCb : Bytes → Bytes → Option String := fun _ _ => some "leaf callback failure"

/-- A callback that always succeeds. -/
def okCb : Bytes → Bytes → Option String := fun _ _ => none

/-- A decoded full node embedding a hash reference at slot 0, used as a
nested child. -/
def nGatherInner : Node :=
  .fullNode
    [.hashNode [1], .nil, .nil, .nil, .nil, .nil, .nil, .nil, .nil, .nil, .nil,
     .nil, .nil, .nil, .nil, .nil, .nil] ⟨none, true⟩

/-- A decoded full node with a direct hash reference, a hash reference
nested in an embedded short node, a nested full node repeating the digest
of slot 0, and a terminal 17th slot. -/
def nGather : Node :=
  .fullNode
    [.hashNode [1], .shortNode [7] (.hashNode [2]) ⟨none, true⟩, nGatherInner,
     .nil, .nil, .nil, .nil, .nil, .nil, .nil, .nil, .nil, .nil, .nil, .nil, .nil,
     .valueNode [9]] ⟨none, true⟩

/-- A decoder stub returning `nGather` for every blob. -/
def decodeGather : Bytes → Option Node := fun _ => some nGather

/-- Success test on a fallible result. -/
def isOkE {α : Type} : Except String α → Bool
  | .ok _ => true
  | .error _ => false

/-- Two leaf messages queued on the channel, both leaf-shaped short
nodes. -/
def msgsTwoLeaves : List LeafInfo :=
  [⟨.shortNode [1] (.valueNode [7]) ⟨none, true⟩, [10]⟩,
   ⟨.shortNode [2] (.valueNode [8]) ⟨none, true⟩, [11]⟩]

/-!
Pointer-level model of the committer, used to state the frame property
that `commit` never mutates the nodes it is given: shortNode and fullNode
values live in mutable heap cells addressed by naturals, and
`cn.copy()` becomes allocation of a fresh cell.  The logic mirrors
`commit`/`commitChildren`/`store` above; recursion is bounded by fuel,
since an arbitrary heap can contain cycles that the Go tree never has.
-/

/-- Pointer-level node value: shortNode and fullNode are addresses of
heap cells; hashNode, valueNode and nil carry their bytes inline. -/
inductive HNode where
  | short (a : Nat)
  | full (a : Nat)
  | hash (b : Bytes)
  | value (b : Bytes)
  | nil
deriving DecidableEq, Repr

/-- Contents of a `shortNode` cell: key, value and cache flags. -/
structure ShortCell where
  key : Bytes
  val : HNode
  flags : NodeFlag
deriving DecidableEq, Repr

/-- Contents of a `fullNode` cell: the 17-slot child array and the cache
flags. -/
structure FullCell where
  children : List HNode
  flags : NodeFlag
deriving DecidableEq, Repr

/-- The heap of node cells; addresses are list indices. -/
structure Heap where
  shorts : List ShortCell
  fulls : List FullCell
deriving DecidableEq, Repr

/-- Dereference a shortNode address. -/
def Heap.getShort (σ : Heap) (a : Nat) : Option ShortCell := σ.shorts[a]?

/-- Dereference a fullNode address. -/
def Heap.getFull (σ : Heap) (a : Nat) : Option FullCell := σ.fulls[a]?

/-- Allocate a fresh shortNode cell (the `cn.copy()` of the source) and
return its address. -/
def Heap.allocShort (σ : Heap) (cell : ShortCell) : Nat × Heap :=
  (σ.shorts.length, { σ with shorts := σ.shorts ++ [cell] })

/-- Allocate a fresh fullNode cell and return its address. -/
def Heap.allocFull (σ : Heap) (cell : FullCell) : Nat × Heap :=
  (σ.fulls.length, { σ with fulls := σ.fulls ++ [cell] })

/-- Heap extension: every cell present before is present, unchanged,
afterwards.  This is the no-mutation frame property. -/
def Heap.preserves (σ σ' : Heap) : Prop :=
  (∀ (a : Nat) (cell : ShortCell), σ.shorts[a]? = some cell → σ'.shorts[a]? = some cell) ∧
  (∀ (a : Nat) (cell : FullCell), σ.fulls[a]? = some cell → σ'.fulls[a]? = some cell)

/-- The committer state of the pointer-level model; leaf messages carry
node pointers. -/
structure HCommitter where
  nodes : NodeSet
  accessList : List Bytes
  leafCh : Option (List (HNode × Bytes))
deriving DecidableEq, Repr

/-- External collaborators of the pointer-level model; the node encoder
reads the heap. -/
structure ExtH where
  hexToCompact : Bytes → Bytes
  nodeToBytesH : Heap → HNode → Bytes

/-- The `n.cache()` method over the heap; `none` is the fault on a nil
interface or dangling address. -/
def cacheH (σ : Heap) : HNode → Option (Option Bytes × Bool)
  | .short a => (σ.getShort a).map fun cell => (cell.flags.hash, cell.flags.dirty)
  | .full a => (σ.getFull a).map fun cell => (cell.flags.hash, cell.flags.dirty)
  | .hash _ => some (none, true)
  | .value _ => some (none, true)
  | .nil => none

/-- The `store` step over the heap.  It only reads the heap; all its
effects are on the committer state. -/
def storeH (E : ExtH) (σ : Heap) (c : HCommitter) (path : Bytes) (n : HNode) :
    Option (HNode × HCommitter) :=
  match cacheH σ n with
  | none => none
  | some (hash, _) =>
    match hash with
    | none =>
      if c.accessList.contains path then
        some (n, { c with nodes := c.nodes.addNode path .deleted })
      else
        some (n, c)
    | some h =>
      let nhash := bytesToHash h
      let c1 : HCommitter :=
        { c with nodes := c.nodes.addNode path (.written nhash (E.nodeToBytesH σ n)) }
      match c1.leafCh with
      | some msgs => some (.hash h, { c1 with leafCh := some (msgs ++ [(n, nhash)]) })
      | none =>
        match n with
        | .short a =>
          (σ.getShort a).map fun cell =>
            (match cell.val with
              | .value v => (.hash h, { c1 with nodes := c1.nodes.addLeaf nhash v })
              | _ => (.hash h, c1))
        | _ => some (.hash h, c1)

mutual

/-- The recursive commit over the heap, mirroring `commit` above: the
collapse allocates a fresh copy of the node (`cn.copy()`), replaces the
copy's key and value, and stores the copy; the original cell is never
written.  `none` models a panic, fault or fuel exhaustion. -/
def commitH (E : ExtH) : Nat → Bytes → HNode → Heap → HCommitter →
    Option (HNode × Heap × HCommitter)
  | 0, _, _, _, _ => none
  | fuel + 1, path, n, σ, c =>
    match n with
    | .nil => none
    | .hash h => some (.hash h, σ, c)
    | .value _ => none
    | .short a =>
      match σ.getShort a with
      | none => none
      | some cell =>
        match cell.flags.hash, cell.flags.dirty with
        | some h, false => some (.hash h, σ, c)
        | _, _ =>
          ((match cell.val with
            | .full b => commitH E fuel (path ++ cell.key) (.full b) σ c
            | _ => some (cell.val, σ, c)) :
              Option (HNode × Heap × HCommitter)).bind fun (newVal, σ1, c1) =>
            let (a1, σ2) := σ1.allocShort ⟨E.hexToCompact cell.key, newVal, cell.flags⟩
            (storeH E σ2 c1 path (.short a1)).map fun (hashedNode, c2) =>
              (match hashedNode with
                | .hash hn => (.hash hn, σ2, c2)
                | _ => (.short a1, σ2, c2))
    | .full a =>
      match σ.getFull a with
      | none => none
      | some cell =>
        match cell.flags.hash, cell.flags.dirty with
        | some h, false => some (.hash h, σ, c)
        | _, _ =>
          (commitChildrenH E fuel path 0 cell.children σ c).bind fun (kids, σ1, c1) =>
            let (a1, σ2) := σ1.allocFull ⟨kids, cell.flags⟩
            (storeH E σ2 c1 path (.full a1)).map fun (hashedNode, c2) =>
              (match hashedNode with
                | .hash hn => (.hash hn, σ2, c2)
                | _ => (.full a1, σ2, c2))

/-- The children loop over the heap, mirroring `commitChildren` above. -/
def commitChildrenH (E : ExtH) : Nat → Bytes → Nat → List HNode → Heap → HCommitter →
    Option (List HNode × Heap × HCommitter)
  | 0, _, _, _, _, _ => none
  | fuel + 1, path, i, cs, σ, c =>
    match cs with
    | [] => some ([], σ, c)
    | child :: rest =>
      if 16 ≤ i then some (child :: rest, σ, c)
      else
        match child with
        | .nil =>
          (commitChildrenH E fuel path (i + 1) rest σ c).map fun (rs, σ1, c1) =>
            (HNode.nil :: rs, σ1, c1)
        | .hash h =>
          (commitChildrenH E fuel path (i + 1) rest σ c).map fun (rs, σ1, c1) =>
            (HNode.hash h :: rs, σ1, c1)
        | child =>
          (commitH E fuel (path ++ [i]) child σ c).bind fun (cn, σ1, c1) =>
            (commitChildrenH E fuel path (i + 1) rest σ1 c1).map fun (rs, σ2, c2) =>
              (cn :: rs, σ2, c2)

end

/-- A concrete instantiation of the pointer-level collaborators. -/
def EH0 : ExtH := ⟨id, fun _ _ => [0]⟩

/-- An empty pointer-level committer with the pipeline disabled. -/
def hc0 : HCommitter := ⟨⟨[], []⟩, [], none⟩

/-- A one-cell heap holding a dirty leaf-shaped shortNode at address 0. -/
def hp0 : Heap := ⟨[⟨[1], .value [7], ⟨some [9], true⟩⟩], []⟩

/-!
Theorems.  First two unfolding lemmas for the mutual recursion, then the
claim theorems.
-/

/-- Unfolding lemma for `commitChildren`. -/
theorem commitChildren_eq (E : Ext) (path : Bytes) (i : Nat) (cs : List Node) (c : Committer) :
    commitChildren E path i cs c =
      (match cs with
      | [] => .ok ([], c)
      | child :: rest =>
        if 16 ≤ i then .ok (child :: rest, c)
        else
          match child with
          | .nil => do
            let (rs, c1) ← commitChildren E path (i + 1) rest c
            .ok (.nil :: rs, c1)
          | .hashNode h => do
            let (rs, c1) ← commitChildren E path (i + 1) rest c
            .ok (.hashNode h :: rs, c1)
          | child => do
            let (cn, c1) ← commit E (path ++ [i]) child c
            let (rs, c2) ← commitChildren E path (i + 1) rest c1
            .ok (cn :: rs, c2)) := by
  cases cs with
  | nil => rfl
  | cons ch rest => cases ch <;> rfl

/-- Unfolding lemma for `commit`. -/
theorem commit_eq (E : Ext) (path : Bytes) (n : Node) (c : Committer) :
    commit E path n c =
      (match n with
      | .nil => .error nilDerefMsg
      | .hashNode h => .ok (.hashNode h, c)
      | .valueNode v => .error (invalidNodeMsg (.valueNode v))
      | .shortNode key val fl =>
        match fl.hash, fl.dirty with
        | some h, false => .ok (.hashNode h, c)
        | _, _ => do
          let (newVal, c1) ← (match val with
            | .fullNode cs vfl => commit E (path ++ key) (.fullNode cs vfl) c
            | _ => .ok (val, c))
          let collapsed := Node.shortNode (E.hexToCompact key) newVal fl
          let (hashedNode, c2) := store E c1 path collapsed
          match hashedNode with
          | .hashNode hn => .ok (.hashNode hn, c2)
          | _ => .ok (collapsed, c2)
      | .fullNode cs fl =>
        match fl.hash, fl.dirty with
        | some h, false => .ok (.hashNode h, c)
        | _, _ => do
          let (hashedKids, c1) ← commitChildren E path 0 cs c
          let collapsed := Node.fullNode hashedKids fl
          let (hashedNode, c2) := store E c1 path collapsed
          match hashedNode with
          | .hashNode hn => .ok (.hashNode hn, c2)
          | _ => .ok (collapsed, c2)) := by
  cases n with
  | shortNode k v fl =>
    rcases fl with ⟨fh, fd⟩
    cases fh <;> cases fd <;> cases v <;> rfl
  | fullNode cs fl =>
    rcases fl with ⟨fh, fd⟩
    cases fh <;> cases fd <;> rfl
  | hashNode h => rfl
  | valueNode v => rfl
  | nil => rfl

/-- C1: in the store step, a node with no cached hash is returned itself
(not a hash) and a Deleted tombstone is recorded at exactly its path
precisely when the access record contains the path; a node with a cached
hash has a Written entry carrying that digest and the node's encoded
bytes recorded at its path, and the digest is returned. -/
theorem store_embeds_or_writes (E : Ext) (c : Committer) (path : Bytes) (n : Node) :
    ((Node.cache n).1 = none →
      (store E c path n).1 = n ∧
      (store E c path n).2.nodes.nodes =
        c.nodes.nodes ++
          (if c.accessList.contains path then [(path, NSEntry.deleted)] else [])) ∧
    (∀ h, (Node.cache n).1 = some h →
      (store E c path n).1 = Node.hashNode h ∧
      (store E c path n).2.nodes.nodes =
        c.nodes.nodes ++ [(path, NSEntry.written (bytesToHash h) (E.nodeToBytes n))]) := by
  constructor
  · intro hnone
    simp only [store, hnone, NodeSet.addNode]
    split <;> simp
  · intro h hsome
    cases hlc : c.leafCh with
    | some msgs => simp [store, hsome, hlc, NodeSet.addNode]
    | none =>
      simp only [store, hsome, hlc, NodeSet.addNode, NodeSet.addLeaf]
      split <;> simp

/-- Witness for C1 at concrete inputs: a leaf-shaped short node with a
cached hash is written, and a hashless value node is embedded with a
tombstone recorded when its path is in the access record. -/
theorem store_embeds_or_writes_witness :
    (Node.cache (.shortNode [1] (.valueNode [7]) ⟨some [9], true⟩)).1 = some [9] ∧
    (store E0 c0 [] (.shortNode [1] (.valueNode [7]) ⟨some [9], true⟩)).1 =
      Node.hashNode [9] ∧
    (store E0 c0 [] (.shortNode [1] (.valueNode [7]) ⟨some [9], true⟩)).2.nodes.nodes =
      c0.nodes.nodes ++
        [([], NSEntry.written (bytesToHash [9]) (E0.nodeToBytes (.shortNode [1] (.valueNode [7]) ⟨some [9], true⟩)))] := by
  refine ⟨by decide, ?_⟩
  exact (store_embeds_or_writes E0 c0 [] (.shortNode [1] (.valueNode [7]) ⟨some [9], true⟩)).2 [9] (by decide)

/-- C3: a node whose cache carries a present hash and a clear dirty bit
commits to that cached hash immediately, leaving the committer state (and
hence a fresh node set) untouched; consequently the top-level Commit of
such an already-clean tree returns that digest with no new entries. -/
theorem commit_clean_returns_cached_hash (E : Ext) (path : Bytes) (n : Node)
    (c : Committer) (h : Bytes)
    (hh : (Node.cache n).1 = some h) (hd : (Node.cache n).2 = false) :
    commit E path n c = .ok (.hashNode h, c) ∧ Commit E n c = .ok (h, c) := by
  have hgen : ∀ p : Bytes, commit E p n c = .ok (.hashNode h, c) := by
    intro p
    cases n with
    | shortNode k v fl =>
      simp only [Node.cache] at hh hd
      rw [commit_eq]
      simp [hh, hd]
    | fullNode cs fl =>
      simp only [Node.cache] at hh hd
      rw [commit_eq]
      simp [hh, hd]
    | hashNode b => simp [Node.cache] at hh
    | valueNode b => simp [Node.cache] at hh
    | nil => simp [Node.cache] at hh
  exact ⟨hgen path, by simp [Commit, hgen []]⟩

/-- Witness for C3: a clean short node commits to its cached hash with
the committer unchanged. -/
theorem commit_clean_returns_cached_hash_witness :
    commit E0 [] (.shortNode [1] (.valueNode [7]) ⟨some [9], false⟩) c0 =
      .ok (.hashNode [9], c0) ∧
    Commit E0 (.shortNode [1] (.valueNode [7]) ⟨some [9], false⟩) c0 = .ok ([9], c0) :=
  commit_clean_returns_cached_hash E0 [] (.shortNode [1] (.valueNode [7]) ⟨some [9], false⟩)
    c0 [9] (by decide) (by decide)

/-- C6 (amended): commit on a bare terminal value aborts with a fatal
error whose diagnostic identifies the offending variant — though not the
path — and commit on a nil node aborts with a nil-dereference fault. -/
theorem commit_fails_fast_on_illegal_variant (E : Ext) (path v : Bytes) (c : Committer) :
    commit E path (.valueNode v) c = .error (invalidNodeMsg (.valueNode v)) ∧
    invalidNodeMsg (.valueNode v) = nodeTypeName (.valueNode v) ++ ": invalid node" ∧
    commit E path .nil c = .error nilDerefMsg :=
  ⟨rfl, rfl, rfl⟩

/-- Counterexample for C6 as stated: the fatal diagnostics raised at two
different paths are identical, so the diagnostic cannot identify the path
at which the offending variant appeared. -/
theorem invalid_node_diag_is_path_independent :
    commit E0 [0] (.valueNode [5]) c0 = commit E0 [1, 2, 3] (.valueNode [5]) c0 ∧
    commit E0 [0] .nil c0 = commit E0 [1, 2, 3] .nil c0 := by decide

/-- Reduction of a monadic bind on a successful `Except`. -/
theorem bindE_ok {α β : Type} (a : α) (f : α → Except String β) :
    (do let x ← Except.ok a; f x) = f a := rfl

/-- Reduction of a monadic bind on a failed `Except`. -/
theorem bindE_err {α β : Type} (e : String) (f : α → Except String β) :
    (do let x ← Except.error e; f x) = Except.error e := rfl

/-- Helper for C5: the children loop from slot `i` on a suffix of the
child list agrees with the claim-side slot description over the whole
list. -/
theorem commitChildren_eq_slots (E : Ext) (path : Bytes) :
    ∀ (rest cs : List Node) (i : Nat) (c : Committer), cs.length = 17 →
      rest = cs.drop i →
      commitChildren E path i rest c = commitSlotsSpec E path cs i c := by
  intro rest
  induction rest with
  | nil =>
    intro cs i c hlen hrest
    have hi : 16 ≤ i := by
      by_contra hlt
      have : cs.length ≤ i := by
        have := congrArg List.length hrest
        simp [List.length_drop] at this
        omega
      omega
    rw [commitChildren_eq, commitSlotsSpec]
    simp [hi, ← hrest]
  | cons ch rest' ih =>
    intro cs i c hlen hrest
    by_cases hi : 16 ≤ i
    · rw [commitChildren_eq, commitSlotsSpec]
      simp [hi, ← hrest]
    · have h0 : cs[i]? = some ch := by
        have h0' : (cs.drop i)[0]? = some ch := by rw [← hrest]; simp
        rw [List.getElem?_drop] at h0'
        simpa using h0'
      have hget : cs.getD i .nil = ch := by simp [List.getD, h0]
      have htail : rest' = cs.drop (i + 1) := by
        have h1 := congrArg List.tail hrest
        simpa [List.tail_drop] using h1
      have ih' : ∀ c' : Committer,
          commitChildren E path (i + 1) rest' c' = commitSlotsSpec E path cs (i + 1) c' :=
        fun c' => ih cs (i + 1) c' hlen htail
      rw [commitChildren_eq, commitSlotsSpec]
      simp only [if_neg hi, hget, commitSlot]
      cases ch <;> simp only [bindE_ok, ih']

/-- C5: committing the children of a full node processes the 16 branch
slots in ascending index order — absent children skipped, children that
are already hash references kept unchanged, any other child recursively
committed at the path extended by its slot index — and carries every slot
from the 17th on into the collapsed node unchanged, never committing or
storing it. -/
theorem commitChildren_ascending_slots (E : Ext) (path : Bytes) (cs : List Node)
    (c : Committer) (hlen : cs.length = 17) :
    commitChildren E path 0 cs c = commitSlotsSpec E path cs 0 c :=
  commitChildren_eq_slots E path cs cs 0 c hlen rfl

/-- Witness for C5 on a concrete 17-slot child array mixing absent, hash,
short and full children. -/
theorem commitChildren_ascending_slots_witness :
    ([Node.nil, .hashNode [3], .shortNode [2] (.valueNode [4]) ⟨some [8], true⟩,
      .nil, .nil, .nil, .nil, .nil, .nil, .nil, .nil, .nil, .nil, .nil, .nil, .nil,
      .valueNode [6]] : List Node).length = 17 ∧
    commitChildren E0 [] 0
      [Node.nil, .hashNode [3], .shortNode [2] (.valueNode [4]) ⟨some [8], true⟩,
       .nil, .nil, .nil, .nil, .nil, .nil, .nil, .nil, .nil, .nil, .nil, .nil, .nil,
       .valueNode [6]] c0 =
    commitSlotsSpec E0 [] [Node.nil, .hashNode [3], .shortNode [2] (.valueNode [4]) ⟨some [8], true⟩,
       .nil, .nil, .nil, .nil, .nil, .nil, .nil, .nil, .nil, .nil, .nil, .nil, .nil,
       .valueNode [6]] 0 c0 :=
  ⟨by decide,
   commitChildren_ascending_slots E0 []
     [Node.nil, .hashNode [3], .shortNode [2] (.valueNode [4]) ⟨some [8], true⟩,
      .nil, .nil, .nil, .nil, .nil, .nil, .nil, .nil, .nil, .nil, .nil, .nil, .nil,
      .valueNode [6]] c0 (by decide)⟩

/- Helper for C9: on the Go data model the estimator agrees with the
claim-side per-variant formula; proved mutually with its children-loop
companion. -/
mutual

theorem estimateSize_agrees : ∀ n : Node, goodNode n = true →
    estimateSize n = .ok (specEstimateSize n)
  | .shortNode k v fl, hg => by
    have hv : goodNode v = true := by
      cases v <;> simp [goodNode] at hg ⊢ <;> try exact hg
    have hrec := estimateSize_agrees v hv
    show (do
      let sv ← estimateSize v
      Except.ok (3 + k.length + sv)) = _
    rw [hrec, bindE_ok]
    rfl
  | .fullNode cs fl, hg => by
    have hlen : cs.length = 17 ∧ goodChildren cs = true := by
      simp [goodNode] at hg; exact hg
    have hrec := estimateChildren_agrees cs hlen.2 0 3 (by omega)
    show (do
      let s ← estimateChildren 0 cs 3
      Except.ok s) = _
    rw [hrec, bindE_ok]
    rfl
  | .valueNode b, _ => rfl
  | .hashNode b, _ => rfl
  | .nil, hg => by simp [goodNode] at hg

theorem estimateChildren_agrees : ∀ cs : List Node, goodChildren cs = true →
    ∀ i s : Nat, 16 ≤ i + cs.length →
    estimateChildren i cs s = .ok (s + specSlotCost i cs)
  | [], _, i, s, hle => by
    have h0 : 16 - i = 0 := by simp at hle; omega
    show Except.ok s = _
    simp [specSlotCost, h0]
  | .nil :: rest, hg, i, s, hle => by
    have hgrest : goodChildren rest = true := by simp [goodChildren] at hg; exact hg
    by_cases hi : 16 ≤ i
    · show (if 16 ≤ i then Except.ok s else _) = _
      rw [if_pos hi]
      simp [specSlotCost, hi]
    · have hrec := estimateChildren_agrees rest hgrest (i + 1) (s + 1)
        (by simp only [List.length_cons] at hle; omega)
      show (if 16 ≤ i then Except.ok s else estimateChildren (i + 1) rest (s + 1)) = _
      rw [if_neg hi, hrec]
      simp [specSlotCost, if_neg hi]
      omega
  | .hashNode b :: rest, hg, i, s, hle => by
    have hgrest : goodChildren rest = true := by simp [goodChildren] at hg; exact hg.2
    by_cases hi : 16 ≤ i
    · show (if 16 ≤ i then Except.ok s else _) = _
      rw [if_pos hi]
      simp [specSlotCost, hi]
    · have hrec := estimateChildren_agrees rest hgrest (i + 1) (s + (1 + b.length))
        (by simp only [List.length_cons] at hle; omega)
      show (if 16 ≤ i then Except.ok s else (do
          let e ← estimateSize (.hashNode b)
          estimateChildren (i + 1) rest (s + e))) = _
      rw [if_neg hi]
      show estimateChildren (i + 1) rest (s + (1 + b.length)) = _
      rw [hrec]
      simp [specSlotCost, if_neg hi, specEstimateSize]
      omega
  | .valueNode b :: rest, hg, i, s, hle => by
    have hgrest : goodChildren rest = true := by simp [goodChildren] at hg; exact hg.2
    by_cases hi : 16 ≤ i
    · show (if 16 ≤ i then Except.ok s else _) = _
      rw [if_pos hi]
      simp [specSlotCost, hi]
    · have hrec := estimateChildren_agrees rest hgrest (i + 1) (s + (1 + b.length))
        (by simp only [List.length_cons] at hle; omega)
      show (if 16 ≤ i then Except.ok s else (do
          let e ← estimateSize (.valueNode b)
          estimateChildren (i + 1) rest (s + e))) = _
      rw [if_neg hi]
      show estimateChildren (i + 1) rest (s + (1 + b.length)) = _
      rw [hrec]
      simp [specSlotCost, if_neg hi, specEstimateSize]
      omega
  | .shortNode k v fl :: rest, hg, i, s, hle => by
    have hgch : goodNode (.shortNode k v fl) = true ∧ goodChildren rest = true := by
      simp [goodChildren] at hg; exact hg
    by_cases hi : 16 ≤ i
    · show (if 16 ≤ i then Except.ok s else _) = _
      rw [if_pos hi]
      simp [specSlotCost, hi]
    · have hch := estimateSize_agrees (.shortNode k v fl) hgch.1
      have hrec := estimateChildren_agrees rest hgch.2 (i + 1)
        (s + specEstimateSize (.shortNode k v fl))
        (by simp only [List.length_cons] at hle; omega)
      show (if 16 ≤ i then Except.ok s else (do
          let e ← estimateSize (.shortNode k v fl)
          estimateChildren (i + 1) rest (s + e))) = _
      rw [if_neg hi, hch, bindE_ok, hrec]
      simp [specSlotCost, if_neg hi]
      omega
  | .fullNode cs2 fl :: rest, hg, i, s, hle => by
    have hgch : goodNode (.fullNode cs2 fl) = true ∧ goodChildren rest = true := by
      simp only [goodChildren, Bool.and_eq_true] at hg; exact hg
    by_cases hi : 16 ≤ i
    · show (if 16 ≤ i then Except.ok s else _) = _
      rw [if_pos hi]
      simp [specSlotCost, hi]
    · have hch := estimateSize_agrees (.fullNode cs2 fl) hgch.1
      have hrec := estimateChildren_agrees rest hgch.2 (i + 1)
        (s + specEstimateSize (.fullNode cs2 fl))
        (by simp only [List.length_cons] at hle; omega)
      show (if 16 ≤ i then Except.ok s else (do
          let e ← estimateSize (.fullNode cs2 fl)
          estimateChildren (i + 1) rest (s + e))) = _
      rw [if_neg hi, hch, bindE_ok, hrec]
      simp [specSlotCost, if_neg hi]
      omega

end

/-- C9: for every node of the Go data model, the size estimator computes
exactly the claimed formula — ShortNode: 3 plus key length plus the
value's estimate; FullNode: 3 plus, per slot 0-15, the child's estimate
or 1 if absent, with no 17th-slot contribution; ValueNode and HashNode: 1
plus their byte length — and, being a pure function, performs no
encoding. -/
theorem estimateSize_is_claimed_formula (n : Node) (hg : goodNode n = true) :
    estimateSize n = .ok (specEstimateSize n) :=
  estimateSize_agrees n hg

/-- Witness for C9 on a concrete full node holding a leaf-shaped short
node at slot 2 and a terminal value at slot 16. -/
theorem estimateSize_is_claimed_formula_witness :
    goodNode (.fullNode
      [Node.nil, .hashNode [3, 3], .shortNode [2] (.valueNode [4, 4, 4]) ⟨some [8], true⟩,
       .nil, .nil, .nil, .nil, .nil, .nil, .nil, .nil, .nil, .nil, .nil, .nil, .nil,
       .valueNode [6]] ⟨none, true⟩) = true ∧
    estimateSize (.fullNode
      [Node.nil, .hashNode [3, 3], .shortNode [2] (.valueNode [4, 4, 4]) ⟨some [8], true⟩,
       .nil, .nil, .nil, .nil, .nil, .nil, .nil, .nil, .nil, .nil, .nil, .nil, .nil,
       .valueNode [6]] ⟨none, true⟩) =
      .ok (specEstimateSize (.fullNode
      [Node.nil, .hashNode [3, 3], .shortNode [2] (.valueNode [4, 4, 4]) ⟨some [8], true⟩,
       .nil, .nil, .nil, .nil, .nil, .nil, .nil, .nil, .nil, .nil, .nil, .nil, .nil,
       .valueNode [6]] ⟨none, true⟩)) ∧
    specEstimateSize (.fullNode
      [Node.nil, .hashNode [3, 3], .shortNode [2] (.valueNode [4, 4, 4]) ⟨some [8], true⟩,
       .nil, .nil, .nil, .nil, .nil, .nil, .nil, .nil, .nil, .nil, .nil, .nil, .nil,
       .valueNode [6]] ⟨none, true⟩) = 28 :=
  ⟨by decide,
   estimateSize_is_claimed_formula _ (by decide),
   by decide⟩

/- Helper for C8: over decoder-producible shapes, the digests reported by
the tree walk count every hash reference in the structure exactly once;
proved mutually with its child-list companion. -/
mutual

theorem forGather_count : ∀ n : Node, decodedWF n = true → ∀ d : Bytes,
    (forGatherChildren n).count d = hashRefCount d n
  | .shortNode k v fl, hw, d => by
    have hv : decodedWF v = true := by simpa [decodedWF] using hw
    show (forGatherChildren v).count d = hashRefCount d v
    exact forGather_count v hv d
  | .fullNode cs fl, hw, d => by
    have hc : decodedWFChildren 0 cs = true := by
      simp [decodedWF] at hw; exact hw.2
    show (gatherList 0 cs).count d = hashRefCountList d cs
    exact gatherList_count cs 0 hc d
  | .hashNode h, _, d => by
    show ([bytesToHash h]).count d = (if bytesToHash h = d then 1 else 0)
    simp [List.count_singleton, List.count_nil]
  | .valueNode b, _, d => rfl
  | .nil, _, d => rfl

theorem gatherList_count : ∀ (cs : List Node) (i : Nat),
    decodedWFChildren i cs = true → ∀ d : Bytes,
    (gatherList i cs).count d = hashRefCountList d cs
  | [], i, _, d => rfl
  | ch :: rest, i, hw, d => by
    have hw2 : decodedWFChildren (i + 1) rest = true := by
      simp only [decodedWFChildren, Bool.and_eq_true] at hw
      exact hw.2
    have hgl : gatherList i (ch :: rest) =
        if 16 ≤ i then [] else forGatherChildren ch ++ gatherList (i + 1) rest := rfl
    have hrc : hashRefCountList d (ch :: rest) =
        hashRefCount d ch + hashRefCountList d rest := rfl
    by_cases hi : 16 ≤ i
    · have hch0 : hashRefCount d ch = 0 := by
        simp only [decodedWFChildren, Bool.and_eq_true, if_pos hi] at hw
        cases ch <;> simp [hashRefCount] at hw ⊢
      have hrest0 : hashRefCountList d rest = 0 := by
        rw [← gatherList_count rest (i + 1) hw2 d]
        have hnil : gatherList (i + 1) rest = [] := by
          cases rest with
          | nil => rfl
          | cons a b =>
            show (if 16 ≤ i + 1 then ([] : List Bytes) else _) = []
            rw [if_pos (by omega)]
        simp [hnil]
      rw [hgl, if_pos hi, hrc, hch0, hrest0]
      rfl
    · have hwch : decodedWF ch = true := by
        simp only [decodedWFChildren, Bool.and_eq_true, if_neg hi] at hw
        exact hw.1
      rw [hgl, if_neg hi, hrc, List.count_append,
        forGather_count ch hwch d, gatherList_count rest (i + 1) hw2 d]

end

/-- C8: the child resolver decodes the given bytes — any undecodable
blob is a fatal decode error — and reports every hash-reference child
found anywhere in the decoded structure, including ones nested inside
embedded shortNode/fullNode shapes, exactly once (the reported digests
count each reference once); terminal values and empty slots contribute
nothing. -/
theorem resolver_reports_each_hash_ref_once (decode : Bytes → Option Node)
    (blob : Bytes) :
    (decode blob = none → ForEach decode blob = .error "decode error") ∧
    (∀ n, decode blob = some n → ForEach decode blob = .ok (forGatherChildren n)) ∧
    (∀ n, decode blob = some n → decodedWF n = true →
      ∀ d, (forGatherChildren n).count d = hashRefCount d n) ∧
    (∀ v, forGatherChildren (.valueNode v) = []) ∧
    forGatherChildren .nil = [] :=
  ⟨fun h => by simp [ForEach, h],
   fun n h => by simp [ForEach, h],
   fun n _ hw d => forGather_count n hw d,
   fun v => rfl,
   rfl⟩

/-- Witness for C8: the stub decoder yields a node with one direct hash
reference, one nested in an embedded short node and one nested in an
embedded full node repeating the first digest; each is counted exactly
once. -/
theorem resolver_reports_each_hash_ref_once_witness :
    decodeGather [0] = some nGather ∧
    ForEach decodeGather [0] = .ok (forGatherChildren nGather) ∧
    decodedWF nGather = true ∧
    (forGatherChildren nGather).count (bytesToHash [1]) = hashRefCount (bytesToHash [1]) nGather ∧
    (forGatherChildren nGather).count (bytesToHash [1]) = 2 ∧
    (forGatherChildren nGather).count (bytesToHash [2]) = 1 :=
  ⟨rfl,
   (resolver_reports_each_hash_ref_once decodeGather [0]).2.1 nGather rfl,
   by decide,
   (resolver_reports_each_hash_ref_once decodeGather [0]).2.2.1 nGather rfl (by decide)
     (bytesToHash [1]),
   by decide,
   by decide⟩

/-- Helper for C2 and C7: a successful drain of the channel appends to
the leaf mapping exactly the payload of every leaf-shaped message, in
order, and leaves the node mapping untouched. -/
theorem commitLoop_leaves (f : Bytes → Bytes → Option String) :
    ∀ (msgs : List LeafInfo) (ns ns' : NodeSet),
    commitLoop (some f) msgs ns = .ok ns' →
    ns'.leaves = ns.leaves ++ msgs.filterMap leafPayload ∧ ns'.nodes = ns.nodes := by
  intro msgs
  induction msgs with
  | nil =>
    intro ns ns' h
    have h' : Except.ok (ε := String) ns = .ok ns' := h
    injection h' with h'
    subst h'
    simp
  | cons item rest ih =>
    intro ns ns' h
    obtain ⟨nd, p⟩ := item
    cases nd with
    | shortNode k v fl =>
      cases v with
      | valueNode vb =>
        have h' : commitLoop (some f) rest (ns.addLeaf p vb) = .ok ns' := h
        simpa [leafPayload, NodeSet.addLeaf] using ih (ns.addLeaf p vb) ns' h'
      | shortNode k2 v2 fl2 =>
        have h' : commitLoop (some f) rest ns = .ok ns' := h
        simpa [leafPayload] using ih ns ns' h'
      | fullNode cs2 fl2 =>
        have h' : commitLoop (some f) rest ns = .ok ns' := h
        simpa [leafPayload] using ih ns ns' h'
      | hashNode b =>
        have h' : commitLoop (some f) rest ns = .ok ns' := h
        simpa [leafPayload] using ih ns ns' h'
      | nil =>
        have h' : commitLoop (some f) rest ns = .ok ns' := h
        simpa [leafPayload] using ih ns ns' h'
    | fullNode cs fl =>
      have h' : (match cs.getD 16 Node.nil with
          | Node.nil => commitLoop (some f) rest ns
          | Node.valueNode v => commitLoop (some f) rest (ns.addLeaf p v)
          | _ => (Except.error "interface conversion: trie.node is not trie.valueNode" :
              Except String NodeSet)) = .ok ns' := h
      have hlp : leafPayload ⟨Node.fullNode cs fl, p⟩ =
          (match cs.getD 16 Node.nil with
            | Node.valueNode v => some (p, v)
            | _ => none) := rfl
      rw [List.filterMap_cons, hlp]
      rcases hg : cs.getD 16 Node.nil with k2 | ⟨cs2, fl2⟩ | b | vb | _ <;> rw [hg] at h'
      case shortNode => simp at h'
      case fullNode => simp at h'
      case hashNode => simp at h'
      case valueNode =>
        simpa [NodeSet.addLeaf] using ih (ns.addLeaf p vb) ns' h'
      case nil => simpa using ih ns ns' h'
    | hashNode b =>
      have h' : commitLoop (some f) rest ns = .ok ns' := h
      simpa [leafPayload] using ih ns ns' h'
    | valueNode b =>
      have h' : commitLoop (some f) rest ns = .ok ns' := h
      simpa [leafPayload] using ih ns ns' h'
    | nil =>
      have h' : commitLoop (some f) rest ns = .ok ns' := h
      simpa [leafPayload] using ih ns ns' h'

/-- Helper for C7: the worker's result does not depend on the values the
callback returns, only on its presence — the source discards the error
the callback reports. -/
theorem commitLoop_callback_irrelevant (f g : Bytes → Bytes → Option String) :
    ∀ (msgs : List LeafInfo) (ns : NodeSet),
    commitLoop (some f) msgs ns = commitLoop (some g) msgs ns := by
  intro msgs
  induction msgs with
  | nil => intro ns; rfl
  | cons item rest ih =>
    intro ns
    obtain ⟨nd, p⟩ := item
    cases nd with
    | shortNode k v fl =>
      cases v with
      | valueNode vb =>
        show commitLoop (some f) rest (ns.addLeaf p vb) =
          commitLoop (some g) rest (ns.addLeaf p vb)
        exact ih _
      | shortNode k2 v2 fl2 =>
        show commitLoop (some f) rest ns = commitLoop (some g) rest ns
        exact ih ns
      | fullNode cs2 fl2 =>
        show commitLoop (some f) rest ns = commitLoop (some g) rest ns
        exact ih ns
      | hashNode b =>
        show commitLoop (some f) rest ns = commitLoop (some g) rest ns
        exact ih ns
      | nil =>
        show commitLoop (some f) rest ns = commitLoop (some g) rest ns
        exact ih ns
    | fullNode cs fl =>
      show (match cs.getD 16 Node.nil with
          | Node.nil => commitLoop (some f) rest ns
          | Node.valueNode v => commitLoop (some f) rest (ns.addLeaf p v)
          | _ => (Except.error "interface conversion: trie.node is not trie.valueNode" :
              Except String NodeSet)) =
        (match cs.getD 16 Node.nil with
          | Node.nil => commitLoop (some g) rest ns
          | Node.valueNode v => commitLoop (some g) rest (ns.addLeaf p v)
          | _ => (Except.error "interface conversion: trie.node is not trie.valueNode" :
              Except String NodeSet))
      rcases hg : cs.getD 16 Node.nil with k2 | ⟨cs2, fl2⟩ | b | vb | _ <;> simp [ih]
    | hashNode b =>
      show commitLoop (some f) rest ns = commitLoop (some g) rest ns
      exact ih ns
    | valueNode b =>
      show commitLoop (some f) rest ns = commitLoop (some g) rest ns
      exact ih ns
    | nil =>
      show commitLoop (some f) rest ns = commitLoop (some g) rest ns
      exact ih ns

/-- C2 (amended): a leaf-shaped short node recorded as Written has its
terminal value recorded in the leaf mapping keyed by its digest — in
synchronous mode directly by the store step, and in pipeline mode by the
worker for every queued message — provided a leaf callback is configured
when the pipeline is enabled. -/
theorem leaf_mapping_completeness :
    (∀ (E : Ext) (c : Committer) (path k v : Bytes) (fl : NodeFlag) (h : Bytes),
      fl.hash = some h → c.leafCh = none →
      (store E c path (.shortNode k (.valueNode v) fl)).2.nodes.leaves =
        c.nodes.leaves ++ [(bytesToHash h, v)] ∧
      (store E c path (.shortNode k (.valueNode v) fl)).2.nodes.nodes =
        c.nodes.nodes ++ [(path, .written (bytesToHash h)
          (E.nodeToBytes (.shortNode k (.valueNode v) fl)))]) ∧
    (∀ (E : Ext) (c : Committer) (path k v : Bytes) (fl : NodeFlag) (h : Bytes)
      (msgs : List LeafInfo),
      fl.hash = some h → c.leafCh = some msgs →
      (store E c path (.shortNode k (.valueNode v) fl)).2.leafCh =
        some (msgs ++ [⟨.shortNode k (.valueNode v) fl, bytesToHash h⟩])) ∧
    (∀ (f : Bytes → Bytes → Option String) (msgs : List LeafInfo) (ns ns' : NodeSet),
      commitLoop (some f) msgs ns = .ok ns' →
      ∀ m ∈ msgs, ∀ pv : Bytes × Bytes, leafPayload m = some pv → pv ∈ ns'.leaves) := by
  refine ⟨?_, ?_, ?_⟩
  · intro E c path k v fl h hh hlc
    simp [store, Node.cache, hh, hlc, NodeSet.addNode, NodeSet.addLeaf]
  · intro E c path k v fl h msgs hh hlc
    simp [store, Node.cache, hh, hlc, NodeSet.addNode]
  · intro f msgs ns ns' h m hm pv hpv
    have := (commitLoop_leaves f msgs ns ns' h).1
    rw [this]
    exact List.mem_append_right _ (List.mem_filterMap.mpr ⟨m, hm, hpv⟩)

/-- Counterexample for C2 as stated: with the pipeline enabled but no
callback configured, committing a leaf-shaped short node records it as
Written, yet draining the channel leaves the leaf mapping empty. -/
theorem pipeline_without_callback_drops_leaf :
    commit E0 [] (.shortNode [1] (.valueNode [9]) ⟨some [5], true⟩) cPipe =
      .ok (.hashNode [5],
        ⟨⟨[([], .written (bytesToHash [5]) [0])], []⟩, [],
          some [⟨.shortNode [1] (.valueNode [9]) ⟨some [5], true⟩, bytesToHash [5]⟩]⟩) ∧
    drain none
        ⟨⟨[([], .written (bytesToHash [5]) [0])], []⟩, [],
          some [⟨.shortNode [1] (.valueNode [9]) ⟨some [5], true⟩, bytesToHash [5]⟩]⟩ =
      .ok ⟨[([], .written (bytesToHash [5]) [0])], []⟩ := by decide

/-- Witness for C2 (amended) at concrete inputs: synchronous recording,
pipeline hand-off, and worker recording of a queued message. -/
theorem leaf_mapping_completeness_witness :
    ((store E0 c0 [] (.shortNode [1] (.valueNode [7]) ⟨some [9], true⟩)).2.nodes.leaves =
      c0.nodes.leaves ++ [(bytesToHash [9], [7])]) ∧
    ((store E0 cPipe [] (.shortNode [1] (.valueNode [7]) ⟨some [9], true⟩)).2.leafCh =
      some [⟨.shortNode [1] (.valueNode [7]) ⟨some [9], true⟩, bytesToHash [9]⟩]) ∧
    (([10], [7]) : Bytes × Bytes) ∈
      (⟨[], [([10], [7]), ([11], [8])]⟩ : NodeSet).leaves :=
  ⟨(leaf_mapping_completeness.1 E0 c0 [] [1] [7] ⟨some [9], true⟩ [9] rfl rfl).1,
   by simpa using
     leaf_mapping_completeness.2.1 E0 cPipe [] [1] [7] ⟨some [9], true⟩ [9] [] rfl rfl,
   leaf_mapping_completeness.2.2 okCb msgsTwoLeaves ⟨[], []⟩
     ⟨[], [([10], [7]), ([11], [8])]⟩ (by decide)
     ⟨.shortNode [1] (.valueNode [7]) ⟨none, true⟩, [10]⟩ (by decide)
     ([10], [7]) (by decide)⟩

/-- C7 (amended): the worker's result is independent of the failures the
callback reports — the source discards the returned error, so no failure
is surfaced in the commit result — and a successful drain records the
payload of every queued leaf message, so the node set is fully populated
and processing continues past a failing callback. -/
theorem callback_failures_discarded_worker_continues :
    (∀ (f g : Bytes → Bytes → Option String) (msgs : List LeafInfo) (ns : NodeSet),
      commitLoop (some f) msgs ns = commitLoop (some g) msgs ns) ∧
    (∀ (f : Bytes → Bytes → Option String) (msgs : List LeafInfo) (ns ns' : NodeSet),
      commitLoop (some f) msgs ns = .ok ns' →
      ns'.leaves = ns.leaves ++ msgs.filterMap leafPayload ∧ ns'.nodes = ns.nodes) :=
  ⟨fun f g msgs ns => commitLoop_callback_irrelevant f g msgs ns,
   fun f msgs ns ns' h => commitLoop_leaves f msgs ns ns' h⟩

/-- Counterexample for C7 as stated: a callback failing on every leaf
yields exactly the same overall result as one that always succeeds — the
failure is not surfaced to the caller — while both queued messages are
still recorded. -/
theorem callback_failure_invisible_in_result :
    commitLoop (some failCb) msgsTwoLeaves ⟨[], []⟩ =
      commitLoop (some okCb) msgsTwoLeaves ⟨[], []⟩ ∧
    commitLoop (some failCb) msgsTwoLeaves ⟨[], []⟩ =
      .ok ⟨[], [([10], [7]), ([11], [8])]⟩ := by decide

/-- Witness for C7 (amended): the two parts applied to the failing
callback and the two queued leaf messages. -/
theorem callback_failures_discarded_worker_continues_witness :
    commitLoop (some failCb) msgsTwoLeaves ⟨[], [(([0], [0]) : Bytes × Bytes)]⟩ =
      commitLoop (some okCb) msgsTwoLeaves ⟨[], [([0], [0])]⟩ ∧
    ((⟨[], [([0], [0]), ([10], [7]), ([11], [8])]⟩ : NodeSet).leaves =
      (⟨[], [([0], [0])]⟩ : NodeSet).leaves ++ msgsTwoLeaves.filterMap leafPayload ∧
     (⟨[], [([0], [0]), ([10], [7]), ([11], [8])]⟩ : NodeSet).nodes =
      (⟨[], [([0], [0])]⟩ : NodeSet).nodes) :=
  ⟨callback_failures_discarded_worker_continues.1 failCb okCb msgsTwoLeaves _,
   callback_failures_discarded_worker_continues.2 failCb msgsTwoLeaves
     ⟨[], [([0], [0])]⟩ ⟨[], [([0], [0]), ([10], [7]), ([11], [8])]⟩ (by decide)⟩

/-- Decomposition of the panic-free predicate on a child list below slot
16. -/
theorem noPanicChildren_cons_elim (ch : Node) (rest : List Node) (i : Nat)
    (hi : ¬ 16 ≤ i) (h : noPanicChildren i (ch :: rest) = true) :
    (match ch with
      | Node.nil => true
      | Node.hashNode _ => true
      | ch => noPanic ch) = true ∧ noPanicChildren (i + 1) rest = true := by
  have heq : noPanicChildren i (ch :: rest) =
      (if 16 ≤ i then true
        else (match ch with
          | Node.nil => true
          | Node.hashNode _ => true
          | ch => noPanic ch) && noPanicChildren (i + 1) rest) := by
    cases ch <;> rfl
  rw [heq, if_neg hi, Bool.and_eq_true] at h
  exact h

/- Helper for C4: on panic-free inputs the recursive commit and its
children loop always return successfully; proved mutually. -/
mutual

theorem commit_ok_of_noPanic : ∀ (n : Node), noPanic n = true →
    ∀ (E : Ext) (path : Bytes) (c : Committer),
    isOkE (commit E path n c) = true
  | .shortNode _ _ ⟨some _, false⟩, _, _, _, _ => rfl
  | .shortNode k v ⟨some h, true⟩, hnp, E, path, c => by
    cases v with
    | fullNode cs2 fl2 =>
      have hv : noPanic (Node.fullNode cs2 fl2) = true := by simpa [noPanic] using hnp
      have hrec := commit_ok_of_noPanic (Node.fullNode cs2 fl2) hv E (path ++ k) c
      rcases hcm : commit E (path ++ k) (Node.fullNode cs2 fl2) c with e | ⟨r1, c1⟩
      · rw [hcm] at hrec
        simp [isOkE] at hrec
      · have heq : commit E path (.shortNode k (.fullNode cs2 fl2) ⟨some h, true⟩) c = (do
            let (newVal, c1) ← commit E (path ++ k) (Node.fullNode cs2 fl2) c
            let collapsed := Node.shortNode (E.hexToCompact k) newVal (⟨some h, true⟩ : NodeFlag)
            let (hashedNode, c2) := store E c1 path collapsed
            match hashedNode with
            | Node.hashNode hn => Except.ok (Node.hashNode hn, c2)
            | _ => Except.ok (collapsed, c2)) := rfl
        rw [heq, hcm, bindE_ok]
        show isOkE (match store E c1 path
            (Node.shortNode (E.hexToCompact k) r1 ⟨some h, true⟩) with
          | (hashedNode, c2) =>
            (match hashedNode with
              | Node.hashNode hn =>
                (Except.ok (Node.hashNode hn, c2) : Except String (Node × Committer))
              | _ => Except.ok
                  (Node.shortNode (E.hexToCompact k) r1 ⟨some h, true⟩, c2))) = true
        rcases store E c1 path
          (Node.shortNode (E.hexToCompact k) r1 ⟨some h, true⟩) with ⟨hn, c2⟩
        cases hn <;> rfl
    | shortNode k2 v2 fl2 =>
      show isOkE (match store E c path
        (Node.shortNode (E.hexToCompact k) (.shortNode k2 v2 fl2) ⟨some h, true⟩) with
        | (hashedNode, c2) =>
          (match hashedNode with
            | Node.hashNode hn =>
              (Except.ok (Node.hashNode hn, c2) : Except String (Node × Committer))
            | _ => Except.ok
                (Node.shortNode (E.hexToCompact k) (.shortNode k2 v2 fl2) ⟨some h, true⟩, c2))) = true
      rcases store E c path
        (Node.shortNode (E.hexToCompact k) (.shortNode k2 v2 fl2) ⟨some h, true⟩) with ⟨hn, c2⟩
      cases hn <;> rfl
    | hashNode b =>
      show isOkE (match store E c path
        (Node.shortNode (E.hexToCompact k) (.hashNode b) ⟨some h, true⟩) with
        | (hashedNode, c2) =>
          (match hashedNode with
            | Node.hashNode hn =>
              (Except.ok (Node.hashNode hn, c2) : Except String (Node × Committer))
            | _ => Except.ok
                (Node.shortNode (E.hexToCompact k) (.hashNode b) ⟨some h, true⟩, c2))) = true
      rcases store E c path
        (Node.shortNode (E.hexToCompact k) (.hashNode b) ⟨some h, true⟩) with ⟨hn, c2⟩
      cases hn <;> rfl
    | valueNode b =>
      show isOkE (match store E c path
        (Node.shortNode (E.hexToCompact k) (.valueNode b) ⟨some h, true⟩) with
        | (hashedNode, c2) =>
          (match hashedNode with
            | Node.hashNode hn =>
              (Except.ok (Node.hashNode hn, c2) : Except String (Node × Committer))
            | _ => Except.ok
                (Node.shortNode (E.hexToCompact k) (.valueNode b) ⟨some h, true⟩, c2))) = true
      rcases store E c path
        (Node.shortNode (E.hexToCompact k) (.valueNode b) ⟨some h, true⟩) with ⟨hn, c2⟩
      cases hn <;> rfl
    | nil =>
      show isOkE (match store E c path
        (Node.shortNode (E.hexToCompact k) .nil ⟨some h, true⟩) with
        | (hashedNode, c2) =>
          (match hashedNode with
            | Node.hashNode hn =>
              (Except.ok (Node.hashNode hn, c2) : Except String (Node × Committer))
            | _ => Except.ok
                (Node.shortNode (E.hexToCompact k) .nil ⟨some h, true⟩, c2))) = true
      rcases store E c path
        (Node.shortNode (E.hexToCompact k) .nil ⟨some h, true⟩) with ⟨hn, c2⟩
      cases hn <;> rfl
  | .shortNode k v ⟨none, fd⟩, hnp, E, path, c => by
    cases v with
    | fullNode cs2 fl2 =>
      have hv : noPanic (Node.fullNode cs2 fl2) = true := by simpa [noPanic] using hnp
      have hrec := commit_ok_of_noPanic (Node.fullNode cs2 fl2) hv E (path ++ k) c
      rcases hcm : commit E (path ++ k) (Node.fullNode cs2 fl2) c with e | ⟨r1, c1⟩
      · rw [hcm] at hrec
        simp [isOkE] at hrec
      · have heq : commit E path (.shortNode k (.fullNode cs2 fl2) ⟨none, fd⟩) c = (do
            let (newVal, c1) ← commit E (path ++ k) (Node.fullNode cs2 fl2) c
            let collapsed := Node.shortNode (E.hexToCompact k) newVal (⟨none, fd⟩ : NodeFlag)
            let (hashedNode, c2) := store E c1 path collapsed
            match hashedNode with
            | Node.hashNode hn => Except.ok (Node.hashNode hn, c2)
            | _ => Except.ok (collapsed, c2)) := rfl
        rw [heq, hcm, bindE_ok]
        show isOkE (match store E c1 path
            (Node.shortNode (E.hexToCompact k) r1 ⟨none, fd⟩) with
          | (hashedNode, c2) =>
            (match hashedNode with
              | Node.hashNode hn =>
                (Except.ok (Node.hashNode hn, c2) : Except String (Node × Committer))
              | _ => Except.ok
                  (Node.shortNode (E.hexToCompact k) r1 ⟨none, fd⟩, c2))) = true
        rcases store E c1 path
          (Node.shortNode (E.hexToCompact k) r1 ⟨none, fd⟩) with ⟨hn, c2⟩
        cases hn <;> rfl
    | shortNode k2 v2 fl2 =>
      show isOkE (match store E c path
        (Node.shortNode (E.hexToCompact k) (.shortNode k2 v2 fl2) ⟨none, fd⟩) with
        | (hashedNode, c2) =>
          (match hashedNode with
            | Node.hashNode hn =>
              (Except.ok (Node.hashNode hn, c2) : Except String (Node × Committer))
            | _ => Except.ok
                (Node.shortNode (E.hexToCompact k) (.shortNode k2 v2 fl2) ⟨none, fd⟩, c2))) = true
      rcases store E c path
        (Node.shortNode (E.hexToCompact k) (.shortNode k2 v2 fl2) ⟨none, fd⟩) with ⟨hn, c2⟩
      cases hn <;> rfl
    | hashNode b =>
      show isOkE (match store E c path
        (Node.shortNode (E.hexToCompact k) (.hashNode b) ⟨none, fd⟩) with
        | (hashedNode, c2) =>
          (match hashedNode with
            | Node.hashNode hn =>
              (Except.ok (Node.hashNode hn, c2) : Except String (Node × Committer))
            | _ => Except.ok
                (Node.shortNode (E.hexToCompact k) (.hashNode b) ⟨none, fd⟩, c2))) = true
      rcases store E c path
        (Node.shortNode (E.hexToCompact k) (.hashNode b) ⟨none, fd⟩) with ⟨hn, c2⟩
      cases hn <;> rfl
    | valueNode b =>
      show isOkE (match store E c path
        (Node.shortNode (E.hexToCompact k) (.valueNode b) ⟨none, fd⟩) with
        | (hashedNode, c2) =>
          (match hashedNode with
            | Node.hashNode hn =>
              (Except.ok (Node.hashNode hn, c2) : Except String (Node × Committer))
            | _ => Except.ok
                (Node.shortNode (E.hexToCompact k) (.valueNode b) ⟨none, fd⟩, c2))) = true
      rcases store E c path
        (Node.shortNode (E.hexToCompact k) (.valueNode b) ⟨none, fd⟩) with ⟨hn, c2⟩
      cases hn <;> rfl
    | nil =>
      show isOkE (match store E c path
        (Node.shortNode (E.hexToCompact k) .nil ⟨none, fd⟩) with
        | (hashedNode, c2) =>
          (match hashedNode with
            | Node.hashNode hn =>
              (Except.ok (Node.hashNode hn, c2) : Except String (Node × Committer))
            | _ => Except.ok
                (Node.shortNode (E.hexToCompact k) .nil ⟨none, fd⟩, c2))) = true
      rcases store E c path
        (Node.shortNode (E.hexToCompact k) .nil ⟨none, fd⟩) with ⟨hn, c2⟩
      cases hn <;> rfl
  | .fullNode _ ⟨some _, false⟩, _, _, _, _ => rfl
  | .fullNode cs ⟨some h, true⟩, hnp, E, path, c => by
    have hc : noPanicChildren 0 cs = true := by simpa [noPanic] using hnp
    have hrec := commitChildren_ok_of_noPanic cs 0 hc E path c
    rcases hcm : commitChildren E path 0 cs c with e | ⟨rs, c1⟩
    · rw [hcm] at hrec
      simp [isOkE] at hrec
    · have heq : commit E path (.fullNode cs ⟨some h, true⟩) c = (do
          let (hashedKids, c1) ← commitChildren E path 0 cs c
          let collapsed := Node.fullNode hashedKids (⟨some h, true⟩ : NodeFlag)
          let (hashedNode, c2) := store E c1 path collapsed
          match hashedNode with
          | Node.hashNode hn => Except.ok (Node.hashNode hn, c2)
          | _ => Except.ok (collapsed, c2)) := rfl
      rw [heq, hcm, bindE_ok]
      show isOkE (match store E c1 path (Node.fullNode rs ⟨some h, true⟩) with
        | (hashedNode, c2) =>
          (match hashedNode with
            | Node.hashNode hn =>
              (Except.ok (Node.hashNode hn, c2) : Except String (Node × Committer))
            | _ => Except.ok (Node.fullNode rs ⟨some h, true⟩, c2))) = true
      rcases store E c1 path (Node.fullNode rs ⟨some h, true⟩) with ⟨hn, c2⟩
      cases hn <;> rfl
  | .fullNode cs ⟨none, fd⟩, hnp, E, path, c => by
    have hc : noPanicChildren 0 cs = true := by simpa [noPanic] using hnp
    have hrec := commitChildren_ok_of_noPanic cs 0 hc E path c
    rcases hcm : commitChildren E path 0 cs c with e | ⟨rs, c1⟩
    · rw [hcm] at hrec
      simp [isOkE] at hrec
    · have heq : commit E path (.fullNode cs ⟨none, fd⟩) c = (do
          let (hashedKids, c1) ← commitChildren E path 0 cs c
          let collapsed := Node.fullNode hashedKids (⟨none, fd⟩ : NodeFlag)
          let (hashedNode, c2) := store E c1 path collapsed
          match hashedNode with
          | Node.hashNode hn => Except.ok (Node.hashNode hn, c2)
          | _ => Except.ok (collapsed, c2)) := rfl
      rw [heq, hcm, bindE_ok]
      show isOkE (match store E c1 path (Node.fullNode rs ⟨none, fd⟩) with
        | (hashedNode, c2) =>
          (match hashedNode with
            | Node.hashNode hn =>
              (Except.ok (Node.hashNode hn, c2) : Except String (Node × Committer))
            | _ => Except.ok (Node.fullNode rs ⟨none, fd⟩, c2))) = true
      rcases store E c1 path (Node.fullNode rs ⟨none, fd⟩) with ⟨hn, c2⟩
      cases hn <;> rfl
  | .hashNode _, _, _, _, _ => rfl
  | .valueNode b, hnp, _, _, _ => by simp [noPanic] at hnp
  | .nil, hnp, _, _, _ => by simp [noPanic] at hnp

theorem commitChildren_ok_of_noPanic : ∀ (cs : List Node) (i : Nat),
    noPanicChildren i cs = true →
    ∀ (E : Ext) (path : Bytes) (c : Committer),
    isOkE (commitChildren E path i cs c) = true
  | [], _, _, _, _, _ => rfl
  | ch :: rest, i, hnp, E, path, c => by
    have heq : commitChildren E path i (ch :: rest) c =
        (if 16 ≤ i then Except.ok (ch :: rest, c)
          else match ch with
          | .nil => do
            let (rs, c1) ← commitChildren E path (i + 1) rest c
            Except.ok (Node.nil :: rs, c1)
          | .hashNode hb => do
            let (rs, c1) ← commitChildren E path (i + 1) rest c
            Except.ok (Node.hashNode hb :: rs, c1)
          | child => do
            let (cn, c1) ← commit E (path ++ [i]) child c
            let (rs, c2) ← commitChildren E path (i + 1) rest c1
            Except.ok (cn :: rs, c2)) := by
      rw [commitChildren_eq]
    by_cases hi : 16 ≤ i
    · rw [heq, if_pos hi]
      rfl
    · rw [heq, if_neg hi]
      have hnp2 := noPanicChildren_cons_elim ch rest i hi hnp
      have hrest := commitChildren_ok_of_noPanic rest (i + 1) hnp2.2 E path
      cases ch with
      | nil =>
        show isOkE (do
          let (rs, c1) ← commitChildren E path (i + 1) rest c
          Except.ok (Node.nil :: rs, c1)) = true
        rcases hcr : commitChildren E path (i + 1) rest c with e | ⟨rs, c1⟩
        · have := hrest c
          rw [hcr] at this
          simp [isOkE] at this
        · rfl
      | hashNode hb =>
        show isOkE (do
          let (rs, c1) ← commitChildren E path (i + 1) rest c
          Except.ok (Node.hashNode hb :: rs, c1)) = true
        rcases hcr : commitChildren E path (i + 1) rest c with e | ⟨rs, c1⟩
        · have := hrest c
          rw [hcr] at this
          simp [isOkE] at this
        · rfl
      | valueNode b =>
        have hbad := hnp2.1
        simp [noPanic] at hbad
      | shortNode k2 v2 fl2 =>
        have hch := commit_ok_of_noPanic (Node.shortNode k2 v2 fl2) hnp2.1 E (path ++ [i]) c
        show isOkE (do
          let (cn, c1) ← commit E (path ++ [i]) (Node.shortNode k2 v2 fl2) c
          let (rs, c2) ← commitChildren E path (i + 1) rest c1
          Except.ok (cn :: rs, c2)) = true
        rcases hcm : commit E (path ++ [i]) (Node.shortNode k2 v2 fl2) c with e | ⟨cn, c1⟩
        · rw [hcm] at hch
          simp [isOkE] at hch
        · show isOkE (do
            let (rs, c2) ← commitChildren E path (i + 1) rest c1
            Except.ok (cn :: rs, c2)) = true
          rcases hcr : commitChildren E path (i + 1) rest c1 with e | ⟨rs, c2⟩
          · have := hrest c1
            rw [hcr] at this
            simp [isOkE] at this
          · rfl
      | fullNode cs2 fl2 =>
        have hch := commit_ok_of_noPanic (Node.fullNode cs2 fl2) hnp2.1 E (path ++ [i]) c
        show isOkE (do
          let (cn, c1) ← commit E (path ++ [i]) (Node.fullNode cs2 fl2) c
          let (rs, c2) ← commitChildren E path (i + 1) rest c1
          Except.ok (cn :: rs, c2)) = true
        rcases hcm : commit E (path ++ [i]) (Node.fullNode cs2 fl2) c with e | ⟨cn, c1⟩
        · rw [hcm] at hch
          simp [isOkE] at hch
        · show isOkE (do
            let (rs, c2) ← commitChildren E path (i + 1) rest c1
            Except.ok (cn :: rs, c2)) = true
          rcases hcr : commitChildren E path (i + 1) rest c1 with e | ⟨rs, c2⟩
          · have := hrest c1
            rw [hcr] at this
            simp [isOkE] at this
          · rfl

end

/-- Helper: a node with a cached hash is stored as that hash. -/
theorem store_fst_of_hash (E : Ext) (c : Committer) (path : Bytes) (m : Node) (h : Bytes)
    (hh : (Node.cache m).1 = some h) : (store E c path m).1 = .hashNode h := by
  cases hlc : c.leafCh with
  | some msgs => simp [store, hh, hlc]
  | none =>
    simp only [store, hh, hlc]
    split <;> simp

/-- Helper: the store-and-propagate tail of commit yields the cached
hash. -/
theorem tail_result_hash (E : Ext) (path : Bytes) (m : Node) (c1 : Committer)
    (r : Node) (c' : Committer) (h : Bytes)
    (hh : (Node.cache m).1 = some h)
    (hok : (match store E c1 path m with
      | (hashedNode, c2) =>
        (match hashedNode with
          | Node.hashNode hn =>
            (Except.ok (Node.hashNode hn, c2) : Except String (Node × Committer))
          | _ => Except.ok (m, c2))) = .ok (r, c')) : r = .hashNode h := by
  have hsf := store_fst_of_hash E c1 path m h hh
  rcases hst : store E c1 path m with ⟨hn, c2⟩
  rw [hst] at hok hsf
  simp only [] at hsf
  subst hsf
  simp only [] at hok
  injection hok with hok
  exact (congrArg Prod.fst hok).symm

/-- Helper for C4: a successful commit of a node whose cache carries a
hash returns exactly that hash. -/
theorem commit_result_hash (E : Ext) (path : Bytes) (n : Node) (c : Committer)
    (r : Node) (c' : Committer) (h : Bytes)
    (hok : commit E path n c = .ok (r, c')) (hh : (Node.cache n).1 = some h) :
    r = .hashNode h := by
  cases n with
  | hashNode b => simp [Node.cache] at hh
  | valueNode b => simp [Node.cache] at hh
  | nil => simp [Node.cache] at hh
  | shortNode k v fl =>
    obtain ⟨fh, fd⟩ := fl
    simp only [Node.cache] at hh
    subst hh
    cases fd with
    | false =>
      have heq : commit E path (.shortNode k v ⟨some h, false⟩) c =
          .ok (.hashNode h, c) := rfl
      rw [heq] at hok
      injection hok with hok
      exact (congrArg Prod.fst hok).symm
    | true =>
      cases v with
      | fullNode cs2 fl2 =>
        have heq : commit E path (.shortNode k (.fullNode cs2 fl2) ⟨some h, true⟩) c = (do
            let (newVal, c1) ← commit E (path ++ k) (Node.fullNode cs2 fl2) c
            let collapsed := Node.shortNode (E.hexToCompact k) newVal (⟨some h, true⟩ : NodeFlag)
            let (hashedNode, c2) := store E c1 path collapsed
            match hashedNode with
            | Node.hashNode hn => Except.ok (Node.hashNode hn, c2)
            | _ => Except.ok (collapsed, c2)) := rfl
        rw [heq] at hok
        rcases hcm : commit E (path ++ k) (Node.fullNode cs2 fl2) c with e | ⟨r1, c1⟩
        · rw [hcm, bindE_err] at hok
          simp at hok
        · rw [hcm, bindE_ok] at hok
          have hok2 : (match store E c1 path
              (Node.shortNode (E.hexToCompact k) r1 ⟨some h, true⟩) with
            | (hashedNode, c2) =>
              (match hashedNode with
                | Node.hashNode hn =>
                  (Except.ok (Node.hashNode hn, c2) : Except String (Node × Committer))
                | _ => Except.ok
                    (Node.shortNode (E.hexToCompact k) r1 ⟨some h, true⟩, c2))) =
              .ok (r, c') := hok
          exact tail_result_hash E path
            (Node.shortNode (E.hexToCompact k) r1 ⟨some h, true⟩) c1 r c' h rfl hok2
      | shortNode k2 v2 fl2 =>
        exact tail_result_hash E path
          (Node.shortNode (E.hexToCompact k) (.shortNode k2 v2 fl2) ⟨some h, true⟩)
          c r c' h rfl hok
      | hashNode b =>
        exact tail_result_hash E path
          (Node.shortNode (E.hexToCompact k) (.hashNode b) ⟨some h, true⟩)
          c r c' h rfl hok
      | valueNode b =>
        exact tail_result_hash E path
          (Node.shortNode (E.hexToCompact k) (.valueNode b) ⟨some h, true⟩)
          c r c' h rfl hok
      | nil =>
        exact tail_result_hash E path
          (Node.shortNode (E.hexToCompact k) .nil ⟨some h, true⟩)
          c r c' h rfl hok
  | fullNode cs fl =>
    obtain ⟨fh, fd⟩ := fl
    simp only [Node.cache] at hh
    subst hh
    cases fd with
    | false =>
      have heq : commit E path (.fullNode cs ⟨some h, false⟩) c =
          .ok (.hashNode h, c) := rfl
      rw [heq] at hok
      injection hok with hok
      exact (congrArg Prod.fst hok).symm
    | true =>
      have heq : commit E path (.fullNode cs ⟨some h, true⟩) c = (do
          let (hashedKids, c1) ← commitChildren E path 0 cs c
          let collapsed := Node.fullNode hashedKids (⟨some h, true⟩ : NodeFlag)
          let (hashedNode, c2) := store E c1 path collapsed
          match hashedNode with
          | Node.hashNode hn => Except.ok (Node.hashNode hn, c2)
          | _ => Except.ok (collapsed, c2)) := rfl
      rw [heq] at hok
      rcases hcm : commitChildren E path 0 cs c with e | ⟨rs, c1⟩
      · rw [hcm, bindE_err] at hok
        simp at hok
      · rw [hcm, bindE_ok] at hok
        have hok2 : (match store E c1 path (Node.fullNode rs ⟨some h, true⟩) with
          | (hashedNode, c2) =>
            (match hashedNode with
              | Node.hashNode hn =>
                (Except.ok (Node.hashNode hn, c2) : Except String (Node × Committer))
              | _ => Except.ok (Node.fullNode rs ⟨some h, true⟩, c2))) =
            .ok (r, c') := hok
        exact tail_result_hash E path (Node.fullNode rs ⟨some h, true⟩) c1 r c' h rfl hok2

/-- C4 (amended): for every panic-free root that is a HashNode or carries
a present cached hash — the state the external hasher leaves the root in
before commit — Commit succeeds and returns a digest, because the
collapse of such a root always yields a hash node at the top level. -/
theorem Commit_returns_digest_for_hashed_root (E : Ext) (n : Node) (c : Committer)
    (hnp : noPanic n = true)
    (hroot : (∃ h, n = .hashNode h) ∨ (Node.cache n).1.isSome = true) :
    ∃ d c', Commit E n c = .ok (d, c') := by
  rcases hroot with ⟨h, rfl⟩ | hsome
  · exact ⟨h, c, rfl⟩
  · rw [Option.isSome_iff_exists] at hsome
    obtain ⟨h, hh⟩ := hsome
    have hok := commit_ok_of_noPanic n hnp E [] c
    rcases hcm : commit E [] n c with e | ⟨r, c'⟩
    · rw [hcm] at hok
      simp [isOkE] at hok
    · have hr := commit_result_hash E [] n c r c' h hcm hh
      subst hr
      refine ⟨h, c', ?_⟩
      simp [Commit, hcm]

/-- Counterexample for C4 as stated: a legal ShortNode root whose cache
carries no hash collapses to an embedded node at the top level, and the
conversion of the result to a hash reference fails. -/
theorem Commit_conversion_fails_on_embedded_root :
    Commit E0 (.shortNode [1] (.valueNode [7]) ⟨none, true⟩) c0 =
      .error "interface conversion: trie.node is not trie.hashNode" := by decide

/-- Witness for C4 (amended) on a dirty short-node root with a cached
hash. -/
theorem Commit_returns_digest_for_hashed_root_witness :
    noPanic (.shortNode [1] (.valueNode [7]) ⟨some [9], true⟩) = true ∧
    ∃ d c', Commit E0 (.shortNode [1] (.valueNode [7]) ⟨some [9], true⟩) c0 =
      .ok (d, c') :=
  ⟨by decide,
   Commit_returns_digest_for_hashed_root E0
     (.shortNode [1] (.valueNode [7]) ⟨some [9], true⟩) c0 (by decide)
     (Or.inr (by decide))⟩

/-- Heap extension is reflexive. -/
theorem Heap.preserves_refl (σ : Heap) : Heap.preserves σ σ :=
  ⟨fun _ _ h => h, fun _ _ h => h⟩

/-- Heap extension is transitive. -/
theorem Heap.preserves_trans {σ1 σ2 σ3 : Heap}
    (h12 : Heap.preserves σ1 σ2) (h23 : Heap.preserves σ2 σ3) :
    Heap.preserves σ1 σ3 :=
  ⟨fun a cell h => h23.1 a cell (h12.1 a cell h),
   fun a cell h => h23.2 a cell (h12.2 a cell h)⟩

/-- Appending cells does not disturb existing indices. -/
theorem getElem?_append_of_some {α : Type} (l l' : List α) (a : Nat) (x : α)
    (h : l[a]? = some x) : (l ++ l')[a]? = some x := by
  have hlt : a < l.length := by
    by_contra hge
    rw [List.getElem?_eq_none (by omega)] at h
    simp at h
  rw [List.getElem?_append_left hlt]
  exact h

/-- Allocating a fresh shortNode cell preserves the heap. -/
theorem preserves_allocShort (σ : Heap) (cell : ShortCell) :
    Heap.preserves σ (σ.allocShort cell).2 := by
  refine ⟨fun a c h => ?_, fun a c h => ?_⟩
  · exact getElem?_append_of_some σ.shorts [cell] a c h
  · exact h

/-- Allocating a fresh fullNode cell preserves the heap. -/
theorem preserves_allocFull (σ : Heap) (cell : FullCell) :
    Heap.preserves σ (σ.allocFull cell).2 := by
  refine ⟨fun a c h => ?_, fun a c h => ?_⟩
  · exact h
  · exact getElem?_append_of_some σ.fulls [cell] a c h

/-- The store-and-propagate tail of the pointer-level commit returns the
heap it was given. -/
theorem map_heap_eq2 (emb : HNode) (σ2 : Heap) (o : Option (HNode × HCommitter))
    (r : HNode) (σ' : Heap) (c' : HCommitter)
    (h : ((o.map fun pr =>
      (match pr.1 with
        | HNode.hash hb => (HNode.hash hb, σ2, pr.2)
        | _ => (emb, σ2, pr.2))) : Option (HNode × Heap × HCommitter)) =
      some (r, σ', c')) :
    σ' = σ2 := by
  cases o with
  | none => exact Option.noConfusion h
  | some pr =>
    have h' : (some (match pr.1 with
        | HNode.hash hb => (HNode.hash hb, σ2, pr.2)
        | _ => (emb, σ2, pr.2)) : Option (HNode × Heap × HCommitter)) =
        some (r, σ', c') := h
    injection h' with h'
    cases hpr : pr.1 <;> rw [hpr] at h' <;>
      exact (congrArg (fun t => t.2.1) h').symm

/-- The collapse tail of the pointer-level commit — allocate the copy,
store it, propagate hash or copy — only extends the heap. -/
theorem alloc_tail_preserves {α : Type} (E : ExtH) (path : Bytes)
    (o : Option (α × Heap × HCommitter))
    (mkA : α → Heap → Nat × Heap) (emb : Nat → HNode)
    (σ : Heap) (r : HNode) (σ' : Heap) (c' : HCommitter)
    (hpre : ∀ r1 σ1 c1, o = some (r1, σ1, c1) → Heap.preserves σ σ1)
    (halloc : ∀ nv σ1, Heap.preserves σ1 (mkA nv σ1).2)
    (h : (o.bind fun pr1 =>
      (storeH E (mkA pr1.1 pr1.2.1).2 pr1.2.2 path (emb (mkA pr1.1 pr1.2.1).1)).map
        fun pr =>
          (match pr.1 with
            | HNode.hash hb => (HNode.hash hb, (mkA pr1.1 pr1.2.1).2, pr.2)
            | _ => (emb (mkA pr1.1 pr1.2.1).1, (mkA pr1.1 pr1.2.1).2, pr.2))) =
      some (r, σ', c')) :
    Heap.preserves σ σ' := by
  cases o with
  | none => exact Option.noConfusion h
  | some pr1 =>
    have h' : ((storeH E (mkA pr1.1 pr1.2.1).2 pr1.2.2 path
        (emb (mkA pr1.1 pr1.2.1).1)).map fun pr =>
          (match pr.1 with
            | HNode.hash hb => (HNode.hash hb, (mkA pr1.1 pr1.2.1).2, pr.2)
            | _ => (emb (mkA pr1.1 pr1.2.1).1, (mkA pr1.1 pr1.2.1).2, pr.2))) =
        some (r, σ', c') := h
    have hσ := map_heap_eq2 (emb (mkA pr1.1 pr1.2.1).1) ((mkA pr1.1 pr1.2.1).2)
      (storeH E (mkA pr1.1 pr1.2.1).2 pr1.2.2 path (emb (mkA pr1.1 pr1.2.1).1))
      r σ' c' h'
    rw [hσ]
    exact Heap.preserves_trans (hpre pr1.1 pr1.2.1 pr1.2.2 rfl) (halloc pr1.1 pr1.2.1)

/-- Helper for C10: the pointer-level commit and children loop only
extend the heap; every pre-existing cell is untouched. -/
theorem commitH_preserves_aux : ∀ fuel : Nat,
    (∀ (E : ExtH) (path : Bytes) (n : HNode) (σ : Heap) (c : HCommitter)
      (r : HNode) (σ' : Heap) (c' : HCommitter),
      commitH E fuel path n σ c = some (r, σ', c') → Heap.preserves σ σ') ∧
    (∀ (E : ExtH) (path : Bytes) (i : Nat) (cs : List HNode) (σ : Heap)
      (c : HCommitter) (rs : List HNode) (σ' : Heap) (c' : HCommitter),
      commitChildrenH E fuel path i cs σ c = some (rs, σ', c') → Heap.preserves σ σ') := by
  intro fuel
  induction fuel with
  | zero =>
    constructor
    · intro E path n σ c r σ' c' h
      exact Option.noConfusion h
    · intro E path i cs σ c rs σ' c' h
      exact Option.noConfusion h
  | succ fuel ih =>
    constructor
    · intro E path n σ c r σ' c' h
      cases n with
      | nil => exact Option.noConfusion h
      | value b => exact Option.noConfusion h
      | hash b =>
        have h2 : (some (HNode.hash b, σ, c) :
            Option (HNode × Heap × HCommitter)) = some (r, σ', c') := h
        injection h2 with h2
        have h3 : σ = σ' := congrArg (fun t => t.2.1) h2
        subst h3
        exact Heap.preserves_refl σ
      | short a =>
        have h1 : (match σ.getShort a with
            | none => none
            | some cell =>
              match cell.flags.hash, cell.flags.dirty with
              | some hb, false => some (HNode.hash hb, σ, c)
              | _, _ =>
                ((match cell.val with
                  | HNode.full b => commitH E fuel (path ++ cell.key) (.full b) σ c
                  | _ => some (cell.val, σ, c)) :
                    Option (HNode × Heap × HCommitter)).bind fun pr1 =>
                  (storeH E
                      (pr1.2.1.allocShort
                        ⟨E.hexToCompact cell.key, pr1.1, cell.flags⟩).2 pr1.2.2 path
                      (HNode.short (pr1.2.1.allocShort
                        ⟨E.hexToCompact cell.key, pr1.1, cell.flags⟩).1)).map fun pr =>
                    (match pr.1 with
                      | HNode.hash hb =>
                        (HNode.hash hb,
                          (pr1.2.1.allocShort
                            ⟨E.hexToCompact cell.key, pr1.1, cell.flags⟩).2, pr.2)
                      | _ =>
                        (HNode.short (pr1.2.1.allocShort
                            ⟨E.hexToCompact cell.key, pr1.1, cell.flags⟩).1,
                          (pr1.2.1.allocShort
                            ⟨E.hexToCompact cell.key, pr1.1, cell.flags⟩).2, pr.2))) =
            some (r, σ', c') := h
        rcases hga : σ.getShort a with _ | ⟨ck, cv, cfh, cfd⟩
        · rw [hga] at h1
          exact Option.noConfusion h1
        · rw [hga] at h1
          cases cfh with
          | some hb =>
            cases cfd with
            | false =>
              have h2 : (some (HNode.hash hb, σ, c) :
                  Option (HNode × Heap × HCommitter)) = some (r, σ', c') := h1
              injection h2 with h2
              have h3 : σ = σ' := congrArg (fun t => t.2.1) h2
              subst h3
              exact Heap.preserves_refl σ
            | true =>
              refine alloc_tail_preserves E path _
                (fun nv σ1 => σ1.allocShort ⟨E.hexToCompact ck, nv, ⟨some hb, true⟩⟩)
                HNode.short σ r σ' c' ?_
                (fun nv σ1 => preserves_allocShort σ1 ⟨E.hexToCompact ck, nv, ⟨some hb, true⟩⟩)
                h1
              intro r1 σ1 c1 hcm
              cases cv with
              | full b => exact ih.1 E (path ++ ck) (.full b) σ c r1 σ1 c1 hcm
              | short a2 =>
                injection hcm with hcm
                have h3 : σ = σ1 := congrArg (fun t => t.2.1) hcm
                subst h3
                exact Heap.preserves_refl σ
              | hash b2 =>
                injection hcm with hcm
                have h3 : σ = σ1 := congrArg (fun t => t.2.1) hcm
                subst h3
                exact Heap.preserves_refl σ
              | value b2 =>
                injection hcm with hcm
                have h3 : σ = σ1 := congrArg (fun t => t.2.1) hcm
                subst h3
                exact Heap.preserves_refl σ
              | nil =>
                injection hcm with hcm
                have h3 : σ = σ1 := congrArg (fun t => t.2.1) hcm
                subst h3
                exact Heap.preserves_refl σ
          | none =>
            refine alloc_tail_preserves E path _
              (fun nv σ1 => σ1.allocShort ⟨E.hexToCompact ck, nv, ⟨none, cfd⟩⟩)
              HNode.short σ r σ' c' ?_
              (fun nv σ1 => preserves_allocShort σ1 ⟨E.hexToCompact ck, nv, ⟨none, cfd⟩⟩)
              h1
            intro r1 σ1 c1 hcm
            cases cv with
            | full b => exact ih.1 E (path ++ ck) (.full b) σ c r1 σ1 c1 hcm
            | short a2 =>
              injection hcm with hcm
              have h3 : σ = σ1 := congrArg (fun t => t.2.1) hcm
              subst h3
              exact Heap.preserves_refl σ
            | hash b2 =>
              injection hcm with hcm
              have h3 : σ = σ1 := congrArg (fun t => t.2.1) hcm
              subst h3
              exact Heap.preserves_refl σ
            | value b2 =>
              injection hcm with hcm
              have h3 : σ = σ1 := congrArg (fun t => t.2.1) hcm
              subst h3
              exact Heap.preserves_refl σ
            | nil =>
              injection hcm with hcm
              have h3 : σ = σ1 := congrArg (fun t => t.2.1) hcm
              subst h3
              exact Heap.preserves_refl σ
      | full a =>
        have h1 : (match σ.getFull a with
            | none => none
            | some cell =>
              match cell.flags.hash, cell.flags.dirty with
              | some hb, false => some (HNode.hash hb, σ, c)
              | _, _ =>
                (commitChildrenH E fuel path 0 cell.children σ c).bind fun pr1 =>
                  (storeH E (pr1.2.1.allocFull ⟨pr1.1, cell.flags⟩).2 pr1.2.2 path
                      (HNode.full (pr1.2.1.allocFull ⟨pr1.1, cell.flags⟩).1)).map fun pr =>
                    (match pr.1 with
                      | HNode.hash hb =>
                        (HNode.hash hb, (pr1.2.1.allocFull ⟨pr1.1, cell.flags⟩).2, pr.2)
                      | _ =>
                        (HNode.full (pr1.2.1.allocFull ⟨pr1.1, cell.flags⟩).1,
                          (pr1.2.1.allocFull ⟨pr1.1, cell.flags⟩).2, pr.2))) =
            some (r, σ', c') := h
        rcases hga : σ.getFull a with _ | ⟨cch, cfh, cfd⟩
        · rw [hga] at h1
          exact Option.noConfusion h1
        · rw [hga] at h1
          cases cfh with
          | some hb =>
            cases cfd with
            | false =>
              have h2 : (some (HNode.hash hb, σ, c) :
                  Option (HNode × Heap × HCommitter)) = some (r, σ', c') := h1
              injection h2 with h2
              have h3 : σ = σ' := congrArg (fun t => t.2.1) h2
              subst h3
              exact Heap.preserves_refl σ
            | true =>
              exact alloc_tail_preserves E path
                (commitChildrenH E fuel path 0 cch σ c)
                (fun nv σ1 => σ1.allocFull ⟨nv, ⟨some hb, true⟩⟩)
                HNode.full σ r σ' c'
                (fun rs1 σ1 c1 hcm => ih.2 E path 0 cch σ c rs1 σ1 c1 hcm)
                (fun nv σ1 => preserves_allocFull σ1 ⟨nv, ⟨some hb, true⟩⟩)
                h1
          | none =>
            exact alloc_tail_preserves E path
              (commitChildrenH E fuel path 0 cch σ c)
              (fun nv σ1 => σ1.allocFull ⟨nv, ⟨none, cfd⟩⟩)
              HNode.full σ r σ' c'
              (fun rs1 σ1 c1 hcm => ih.2 E path 0 cch σ c rs1 σ1 c1 hcm)
              (fun nv σ1 => preserves_allocFull σ1 ⟨nv, ⟨none, cfd⟩⟩)
              h1
    · intro E path i cs σ c rs σ' c' h
      cases cs with
      | nil =>
        have h2 : (some ([], σ, c) :
            Option (List HNode × Heap × HCommitter)) = some (rs, σ', c') := h
        injection h2 with h2
        have h3 : σ = σ' := congrArg (fun t => t.2.1) h2
        subst h3
        exact Heap.preserves_refl σ
      | cons ch rest =>
        by_cases hi : 16 ≤ i
        · have h2 : (some (ch :: rest, σ, c) :
              Option (List HNode × Heap × HCommitter)) = some (rs, σ', c') := by
            rw [← h]
            cases ch <;>
              (show some _ = (if 16 ≤ i then _ else _)
               rw [if_pos hi])
          injection h2 with h2
          have h3 : σ = σ' := congrArg (fun t => t.2.1) h2
          subst h3
          exact Heap.preserves_refl σ
        · cases ch with
          | nil =>
            have h2 : (if 16 ≤ i then
                (some (HNode.nil :: rest, σ, c) : Option (List HNode × Heap × HCommitter))
              else
                (commitChildrenH E fuel path (i + 1) rest σ c).map fun pr =>
                  (HNode.nil :: pr.1, pr.2.1, pr.2.2)) = some (rs, σ', c') := h
            rw [if_neg hi] at h2
            rcases hcr : commitChildrenH E fuel path (i + 1) rest σ c
              with _ | ⟨rs1, σ1, c1⟩
            · rw [hcr] at h2
              exact Option.noConfusion h2
            · rw [hcr] at h2
              have h4 : (some (HNode.nil :: rs1, σ1, c1) :
                  Option (List HNode × Heap × HCommitter)) = some (rs, σ', c') := h2
              injection h4 with h4
              have h3 : σ1 = σ' := congrArg (fun t => t.2.1) h4
              rw [← h3]
              exact ih.2 E path (i + 1) rest σ c rs1 σ1 c1 hcr
          | hash hb =>
            have h2 : (if 16 ≤ i then
                (some (HNode.hash hb :: rest, σ, c) : Option (List HNode × Heap × HCommitter))
              else
                (commitChildrenH E fuel path (i + 1) rest σ c).map fun pr =>
                  (HNode.hash hb :: pr.1, pr.2.1, pr.2.2)) = some (rs, σ', c') := h
            rw [if_neg hi] at h2
            rcases hcr : commitChildrenH E fuel path (i + 1) rest σ c
              with _ | ⟨rs1, σ1, c1⟩
            · rw [hcr] at h2
              exact Option.noConfusion h2
            · rw [hcr] at h2
              have h4 : (some (HNode.hash hb :: rs1, σ1, c1) :
                  Option (List HNode × Heap × HCommitter)) = some (rs, σ', c') := h2
              injection h4 with h4
              have h3 : σ1 = σ' := congrArg (fun t => t.2.1) h4
              rw [← h3]
              exact ih.2 E path (i + 1) rest σ c rs1 σ1 c1 hcr
          | short a2 =>
            have h2 : (if 16 ≤ i then
                (some (HNode.short a2 :: rest, σ, c) : Option (List HNode × Heap × HCommitter))
              else
                (commitH E fuel (path ++ [i]) (HNode.short a2) σ c).bind fun pr1 =>
                  (commitChildrenH E fuel path (i + 1) rest pr1.2.1 pr1.2.2).map fun pr =>
                    (pr1.1 :: pr.1, pr.2.1, pr.2.2)) = some (rs, σ', c') := h
            rw [if_neg hi] at h2
            rcases hcm : commitH E fuel (path ++ [i]) (HNode.short a2) σ c
              with _ | ⟨r1, σ1, c1⟩
            · rw [hcm] at h2
              exact Option.noConfusion h2
            · rw [hcm] at h2
              have h2b : ((commitChildrenH E fuel path (i + 1) rest σ1 c1).map fun pr =>
                  (r1 :: pr.1, pr.2.1, pr.2.2)) = some (rs, σ', c') := h2
              rcases hcr : commitChildrenH E fuel path (i + 1) rest σ1 c1
                with _ | ⟨rs1, σ2, c2⟩
              · rw [hcr] at h2b
                exact Option.noConfusion h2b
              · rw [hcr] at h2b
                have h4 : (some (r1 :: rs1, σ2, c2) :
                    Option (List HNode × Heap × HCommitter)) = some (rs, σ', c') := h2b
                injection h4 with h4
                have h3 : σ2 = σ' := congrArg (fun t => t.2.1) h4
                rw [← h3]
                exact Heap.preserves_trans
                  (ih.1 E (path ++ [i]) (HNode.short a2) σ c r1 σ1 c1 hcm)
                  (ih.2 E path (i + 1) rest σ1 c1 rs1 σ2 c2 hcr)
          | full a2 =>
            have h2 : (if 16 ≤ i then
                (some (HNode.full a2 :: rest, σ, c) : Option (List HNode × Heap × HCommitter))
              else
                (commitH E fuel (path ++ [i]) (HNode.full a2) σ c).bind fun pr1 =>
                  (commitChildrenH E fuel path (i + 1) rest pr1.2.1 pr1.2.2).map fun pr =>
                    (pr1.1 :: pr.1, pr.2.1, pr.2.2)) = some (rs, σ', c') := h
            rw [if_neg hi] at h2
            rcases hcm : commitH E fuel (path ++ [i]) (HNode.full a2) σ c
              with _ | ⟨r1, σ1, c1⟩
            · rw [hcm] at h2
              exact Option.noConfusion h2
            · rw [hcm] at h2
              have h2b : ((commitChildrenH E fuel path (i + 1) rest σ1 c1).map fun pr =>
                  (r1 :: pr.1, pr.2.1, pr.2.2)) = some (rs, σ', c') := h2
              rcases hcr : commitChildrenH E fuel path (i + 1) rest σ1 c1
                with _ | ⟨rs1, σ2, c2⟩
              · rw [hcr] at h2b
                exact Option.noConfusion h2b
              · rw [hcr] at h2b
                have h4 : (some (r1 :: rs1, σ2, c2) :
                    Option (List HNode × Heap × HCommitter)) = some (rs, σ', c') := h2b
                injection h4 with h4
                have h3 : σ2 = σ' := congrArg (fun t => t.2.1) h4
                rw [← h3]
                exact Heap.preserves_trans
                  (ih.1 E (path ++ [i]) (HNode.full a2) σ c r1 σ1 c1 hcm)
                  (ih.2 E path (i + 1) rest σ1 c1 rs1 σ2 c2 hcr)
          | value b2 =>
            have h2 : (if 16 ≤ i then
                (some (HNode.value b2 :: rest, σ, c) : Option (List HNode × Heap × HCommitter))
              else
                (commitH E fuel (path ++ [i]) (HNode.value b2) σ c).bind fun pr1 =>
                  (commitChildrenH E fuel path (i + 1) rest pr1.2.1 pr1.2.2).map fun pr =>
                    (pr1.1 :: pr.1, pr.2.1, pr.2.2)) = some (rs, σ', c') := h
            rw [if_neg hi] at h2
            rcases hcm : commitH E fuel (path ++ [i]) (HNode.value b2) σ c
              with _ | ⟨r1, σ1, c1⟩
            · rw [hcm] at h2
              exact Option.noConfusion h2
            · rw [hcm] at h2
              have h2b : ((commitChildrenH E fuel path (i + 1) rest σ1 c1).map fun pr =>
                  (r1 :: pr.1, pr.2.1, pr.2.2)) = some (rs, σ', c') := h2
              rcases hcr : commitChildrenH E fuel path (i + 1) rest σ1 c1
                with _ | ⟨rs1, σ2, c2⟩
              · rw [hcr] at h2b
                exact Option.noConfusion h2b
              · rw [hcr] at h2b
                have h4 : (some (r1 :: rs1, σ2, c2) :
                    Option (List HNode × Heap × HCommitter)) = some (rs, σ', c') := h2b
                injection h4 with h4
                have h3 : σ2 = σ' := congrArg (fun t => t.2.1) h4
                rw [← h3]
                exact Heap.preserves_trans
                  (ih.1 E (path ++ [i]) (HNode.value b2) σ c r1 σ1 c1 hcm)
                  (ih.2 E path (i + 1) rest σ1 c1 rs1 σ2 c2 hcr)

/-- C10: commit never mutates the nodes it is given — the collapse works
on freshly allocated copies, so after a successful run every node cell
that existed before, in particular the input node and all its
descendants, still holds exactly its original key, value, children and
cache fields. -/
theorem commit_never_mutates_input (E : ExtH) (fuel : Nat) (path : Bytes) (n : HNode)
    (σ : Heap) (c : HCommitter) (r : HNode) (σ' : Heap) (c' : HCommitter)
    (h : commitH E fuel path n σ c = some (r, σ', c')) :
    Heap.preserves σ σ' ∧
    (∀ (a : Nat) (cell : ShortCell), σ.getShort a = some cell → σ'.getShort a = some cell) ∧
    (∀ (a : Nat) (cell : FullCell), σ.getFull a = some cell → σ'.getFull a = some cell) := by
  have hp := (commitH_preserves_aux fuel).1 E path n σ c r σ' c' h
  exact ⟨hp, hp.1, hp.2⟩

/-- Witness for C10: committing the dirty leaf-shaped short node at
address 0 allocates its collapsed copy at address 1 and leaves the cell
at address 0 untouched. -/
theorem commit_never_mutates_input_witness :
    commitH EH0 5 [] (.short 0) hp0 hc0 =
      some (.hash [9],
        ⟨[⟨[1], .value [7], ⟨some [9], true⟩⟩, ⟨[1], .value [7], ⟨some [9], true⟩⟩], []⟩,
        ⟨⟨[([], .written (bytesToHash [9]) [0])], [(bytesToHash [9], [7])]⟩, [], none⟩) ∧
    Heap.preserves hp0
      ⟨[⟨[1], .value [7], ⟨some [9], true⟩⟩, ⟨[1], .value [7], ⟨some [9], true⟩⟩], []⟩ ∧
    hp0.shorts[0]? = some ⟨[1], .value [7], ⟨some [9], true⟩⟩ :=
  ⟨by decide,
   (commit_never_mutates_input EH0 5 [] (.short 0) hp0 hc0 (.hash [9])
      ⟨[⟨[1], .value [7], ⟨some [9], true⟩⟩, ⟨[1], .value [7], ⟨some [9], true⟩⟩], []⟩
      ⟨⟨[([], .written (bytesToHash [9]) [0])], [(bytesToHash [9], [7])]⟩, [], none⟩
      (by decide)).1,
   by decide⟩

end BscTrie
